import Mathlib

/-! Town catalogue: AVL tree and open-addressed hash table (`src/main.c`).

A shallow embedding of the indexing code of `main.c`.

* A C string is the list of its bytes before the terminating NUL (`CString`).
* A `Town *` is the tree it points to; `NULL` is `Town.nil`.  The five payload
  fields of `struct Town` are grouped in `Record`.
* `int` values (heights, population, elevation) are `Int`; a cached height is
  at most the number of nodes, far below `2^31`, so no wrap-around is modelled.
* Dereferencing `NULL` is undefined behaviour; functions that can do it return
  `Option`, with `none` standing for the failed dereference.
* The tree functions are modelled by the pointer they return; what the hash
  table functions print is returned as a list of `Message`s.
* Strings are taken to fit their buffers, and `malloc` to succeed.
* A file is the list of its bytes; `fprintf` and `fscanf` are modelled for the
  one format string each is called with.
-/

namespace TownIndex

/-- A C string: its bytes, without the terminating NUL. -/
abbrev CString := List Nat

/-- Bytes of an ASCII literal, for writing concrete inputs. -/
def str (s : String) : CString := s.toList.map Char.toNat

/-- The libc `strcmp`: bytewise comparison as unsigned values; only the sign
of the result is specified, so the model returns `-1`, `0` or `1`. -/
def strcmp : CString → CString → Int
  | [], [] => 0
  | [], _ :: _ => -1
  | _ :: _, [] => 1
  | a :: as, b :: bs =>
    if a < b then -1 else if b < a then 1 else strcmp as bs

/-- Payload of `struct Town`: the fields other than `left`, `right`, `height`. -/
structure Record where
  district : CString
  town : CString
  population : Int
  elevation : Int
  hasMunicipality : CString
  deriving DecidableEq, Repr

/-- A `Town *`: `nil` is `NULL`, `node left rec right height` a `struct Town`. -/
inductive Town where
  | nil : Town
  | node (left : Town) (rec : Record) (right : Town) (height : Int) : Town
  deriving DecidableEq, Repr

open Town

/-- `height` (main.c:32). -/
def height : Town → Int
  | nil => 0
  | node _ _ _ h => h

/-- `max` (main.c:39). -/
def max (a b : Int) : Int := if a > b then a else b

/-- `newTown` (main.c:44). -/
def newTown (r : Record) : Town := node nil r nil 1

/-- `rightRotate` (main.c:58); `none` when `y` or `y->left` is `NULL`. -/
def rightRotate : Town → Option Town
  | node (node xl xrec T2 _) yrec yr _ =>
    let y := node T2 yrec yr (max (height T2) (height yr) + 1)
    some (node xl xrec y (max (height xl) (height y) + 1))
  | _ => none

/-- `leftRotate` (main.c:74); `none` when `x` or `x->right` is `NULL`. -/
def leftRotate : Town → Option Town
  | node xl xrec (node T2 yrec yr _) _ =>
    let x := node xl xrec T2 (max (height xl) (height T2) + 1)
    some (node x yrec yr (max (height x) (height yr) + 1))
  | _ => none

/-- `getBalance` (main.c:90). -/
def getBalance : Town → Int
  | nil => 0
  | node l _ r _ => height l - height r

/-- Lines 109-135 of `insert`: the height update and the four rotation cases,
run on `node` after one of its children has been replaced.  The four `if`s of
the source are exclusive (`balance > 1` against `balance < -1`), so they are
nested here; `node->left->town` is read only under `balance > 1` and
`node->right->town` only under `balance < -1`. -/
def insertRebalance (town : CString) : Town → Option Town
  | nil => none
  | node l rec r _ =>
    let nd := node l rec r (1 + max (height l) (height r))
    let balance := getBalance nd
    if balance > 1 then
      match l with
      | nil => none
      | node _ lrec _ _ =>
        if strcmp town lrec.town < 0 then rightRotate nd
        else if strcmp town lrec.town > 0 then
          (leftRotate l).bind fun l1 => rightRotate (node l1 rec r (1 + max (height l) (height r)))
        else some nd
    else if balance < -1 then
      match r with
      | nil => none
      | node _ rrec _ _ =>
        if strcmp town rrec.town > 0 then leftRotate nd
        else if strcmp town rrec.town < 0 then
          (rightRotate r).bind fun r1 => leftRotate (node l rec r1 (1 + max (height l) (height r)))
        else some nd
    else some nd

/-- `insert` (main.c:97). -/
def insert : Town → Record → Option Town
  | nil, r => some (newTown r)
  | node l rec rt h, r =>
    if strcmp r.town rec.town < 0 then
      (insert l r).bind fun l1 => insertRebalance r.town (node l1 rec rt h)
    else if strcmp r.town rec.town > 0 then
      (insert rt r).bind fun r1 => insertRebalance r.town (node l rec r1 h)
    else some (node l rec rt h)

/-- `findTown` (main.c:139): the node found, or `nil` for `NULL`. -/
def findTown : Town → CString → Town
  | nil, _ => nil
  | node l rec r h, town =>
    if strcmp rec.town town = 0 then node l rec r h
    else if strcmp rec.town town < 0 then findTown r town
    else findTown l town

/-- The `while (temp->left != NULL)` loop of `deleteTown` (main.c:176-178),
started at a non-`NULL` node: the payload of the leftmost node. -/
def leftmost : Town → Record → Record
  | nil, d => d
  | node l rec _ _, _ => leftmost l rec

/-- Lines 196-222 of `deleteTown`: the height update and the four rotation
cases.  As in `insertRebalance` the exclusive `if`s are nested. -/
def deleteRebalance : Town → Option Town
  | nil => none
  | node l rec r _ =>
    let root := node l rec r (1 + max (height l) (height r))
    let balance := getBalance root
    if balance > 1 then
      if getBalance l ≥ 0 then rightRotate root
      else (leftRotate l).bind fun l1 => rightRotate (node l1 rec r (1 + max (height l) (height r)))
    else if balance < -1 then
      if getBalance r ≤ 0 then leftRotate root
      else (rightRotate r).bind fun r1 => leftRotate (node l rec r1 (1 + max (height l) (height r)))
    else some root

/-- `deleteTown` (main.c:150).  In the one-child case `*root = *temp` makes the
node a copy of its child (children and cached height included); in the
two-children case the successor's payload replaces the node's and the
successor's key is deleted from the right subtree.  The "Town not found."
line printed on reaching `NULL` is not part of the model. -/
def deleteTown : Town → CString → Option Town
  | nil, _ => some nil
  | node l rec r h, town =>
    if strcmp town rec.town < 0 then
      (deleteTown l town).bind fun l1 => deleteRebalance (node l1 rec r h)
    else if strcmp town rec.town > 0 then
      (deleteTown r town).bind fun r1 => deleteRebalance (node l rec r1 h)
    else
      match l, r with
      | nil, nil => some nil
      | node ll lrec lr lh, nil => deleteRebalance (node ll lrec lr lh)
      | nil, node rl rrec rr rh => deleteRebalance (node rl rrec rr rh)
      | node ll lrec lr lh, node rl rrec rr rh =>
        let temp := leftmost rl rrec
        (deleteTown (node rl rrec rr rh) temp.town).bind fun r1 =>
          deleteRebalance (node (node ll lrec lr lh) temp r1 h)

/-- `inOrder` (main.c:296): the records in the order they are printed. -/
def inOrder : Town → List Record
  | nil => []
  | node l rec r _ => inOrder l ++ rec :: inOrder r

/-- AVL invariant: every cached height is exact and every balance factor is
within one. -/
def avl : Town → Prop
  | nil => True
  | node l _ r h =>
    avl l ∧ avl r ∧ h = 1 + max (height l) (height r) ∧
      -1 ≤ height l - height r ∧ height l - height r ≤ 1

instance avlDecidable : (t : Town) → Decidable (avl t)
  | nil => isTrue trivial
  | node l _ r h =>
    have := avlDecidable l
    have := avlDecidable r
    inferInstanceAs (Decidable (avl l ∧ avl r ∧ h = 1 + max (height l) (height r) ∧
      -1 ≤ height l - height r ∧ height l - height r ≤ 1))

/-- BST order invariant: a node's key is above every key of its left subtree
and below every key of its right subtree, by `strcmp`. -/
def bst : Town → Prop
  | nil => True
  | node l rec r _ =>
    bst l ∧ bst r ∧ (∀ x ∈ inOrder l, strcmp x.town rec.town < 0) ∧
      (∀ x ∈ inOrder r, strcmp rec.town x.town < 0)

instance bstDecidable : (t : Town) → Decidable (bst t)
  | nil => isTrue trivial
  | node l rec r _ =>
    have := bstDecidable l
    have := bstDecidable r
    inferInstanceAs (Decidable (bst l ∧ bst r ∧ (∀ x ∈ inOrder l, strcmp x.town rec.town < 0) ∧
      (∀ x ∈ inOrder r, strcmp rec.town x.town < 0)))

/-- Strictly ascending by town, by `strcmp`. -/
def ascending (xs : List Record) : Prop :=
  xs.Pairwise fun a b => strcmp a.town b.town < 0

instance ascendingDecidable (xs : List Record) : Decidable (ascending xs) := by
  unfold ascending; infer_instance

/-- After an insertion of `town` that made the subtree taller: the root's
taller side is the side `town` was sent to. -/
def grewToward (town : CString) : Town → Prop
  | nil => False
  | node l rec r _ =>
    (strcmp town rec.town < 0 ∧ height r < height l) ∨
      (strcmp town rec.town > 0 ∧ height l < height r)

/-- A mutating call on the tree, as `main` issues them (`root = insert(root, ...)`,
`root = deleteTown(root, town)`). -/
inductive Op where
  | insert (r : Record) : Op
  | delete (town : CString) : Op
  deriving DecidableEq, Repr

/-- One call, the returned pointer becoming the new root. -/
def applyOp (root : Town) : Op → Option Town
  | Op.insert r => insert root r
  | Op.delete town => deleteTown root town

/-- A finite sequence of calls, run from `root`. -/
def runOps : List Op → Town → Option Town
  | [], root => some root
  | op :: ops, root => (applyOp root op).bind (runOps ops)

/-- The four bootstrap records of `main` (main.c:444-447). -/
def hezma : Record := ⟨str "AlQuds", str "Hezma", 5000, 550, str "yes"⟩

def asira : Record := ⟨str "Nablus", str "Asira", 8000, 350, str "yes"⟩

def qatanna : Record := ⟨str "AlQuds", str "Qatanna", 3000, 300, str "No"⟩

def yabad : Record := ⟨str "Jenin", str "Yabad", 12000, 200, str "yes"⟩

/-- The tree after inserting Hezma, Asira and Qatanna into the empty tree. -/
def threeTowns : Town :=
  node (node nil asira nil 1) hezma (node nil qatanna nil 1) 2

/-- The tree after inserting Hezma, Asira, Qatanna and Yabad into the empty tree. -/
def fourTowns : Town :=
  node (node nil asira nil 1) hezma (node nil qatanna (node nil yabad nil 1) 2) 3

/-- `TABLE_SIZE` (main.c:19). -/
abbrev TABLE_SIZE : Nat := 10

/-- `struct HashTableEntry` (main.c:21).  `townData` is the node the pointer
refers to (the table functions store it and never read through it);
`isOccupied` is the `int` flag, read only as a truth value. -/
structure HashTableEntry where
  town : CString
  townData : Town
  isOccupied : Bool
  deriving DecidableEq, Repr

/-- `struct HashTable` (main.c:27): `entries[i]` is `none` for `NULL`. -/
structure HashTable where
  entries : Fin TABLE_SIZE → Option HashTableEntry

/-- `createHashTable` (main.c:226). -/
def createHashTable : HashTable := ⟨fun _ => none⟩

/-- The value of a `char` converted to `unsigned long`: `char` is signed and
`unsigned long` has 64 bits (x86-64 Linux), so a byte above 127 is negative
and wraps.  ASCII bytes are their own value on every platform. -/
def charValue (c : Nat) : Nat := if c < 128 then c else c + (2 ^ 64 - 256)

/-- The loop of `hash` (main.c:236-239) over the first five bytes. -/
def hashValue (town : CString) : Nat :=
  (town.take 5).foldl (fun hv c => (hv * 31 + charValue c) % 2 ^ 64) 0

/-- `hash` (main.c:235). -/
def hash (town : CString) : Fin TABLE_SIZE :=
  ⟨hashValue town % TABLE_SIZE, Nat.mod_lt _ (by decide)⟩

/-- `(index + 1) % TABLE_SIZE`. -/
def nextIndex (index : Fin TABLE_SIZE) : Fin TABLE_SIZE :=
  ⟨(index.val + 1) % TABLE_SIZE, Nat.mod_lt _ (by decide)⟩

/-- `table->entries[index] != NULL && table->entries[index]->isOccupied`. -/
def occupied (table : HashTable) (index : Fin TABLE_SIZE) : Bool :=
  match table.entries index with
  | none => false
  | some e => e.isOccupied

/-- How the probing loop of `insertIntoHashTable` ends. -/
inductive Probe where
  /-- The loop condition failed at this index. -/
  | free (index : Fin TABLE_SIZE) : Probe
  /-- The index came back to `originalIndex`: "Hash table is full!". -/
  | full : Probe
  /-- More iterations than the fuel allows. -/
  | outOfFuel : Probe
  deriving DecidableEq, Repr

/-- The `while` loop of `insertIntoHashTable` (main.c:249-255); one unit of
fuel per evaluation of the loop condition. -/
def insertProbe (table : HashTable) (originalIndex : Fin TABLE_SIZE) :
    Nat → Fin TABLE_SIZE → Probe
  | 0, _ => Probe.outOfFuel
  | fuel + 1, index =>
    if occupied table index then
      if nextIndex index = originalIndex then Probe.full
      else insertProbe table originalIndex fuel (nextIndex index)
    else Probe.free index

/-- A line printed by the hash table functions. -/
inductive Message where
  /-- "Hash table is full!" -/
  | hashTableFull : Message
  /-- "Town found: %s" with the entry's town. -/
  | townFound (town : CString) : Message
  /-- "Number of collisions: %d". -/
  | collisions (n : Int) : Message
  /-- "Town not found." -/
  | townNotFound : Message
  /-- "Town deleted successfully!" -/
  | townDeleted : Message
  deriving DecidableEq, Repr

/-- `entries[index] = entry`. -/
def HashTable.set (table : HashTable) (index : Fin TABLE_SIZE) (entry : HashTableEntry) :
    HashTable :=
  ⟨fun i => if i = index then some entry else table.entries i⟩

/-- `insertIntoHashTable` (main.c:244): the table after the call and what was
printed.  `none` when `townData` is `NULL` (`townData->town` is read first).
The loop gets `TABLE_SIZE` units of fuel, which it never exhausts
(`insertProbe_fuel`).  `malloc` is taken to succeed. -/
def insertIntoHashTable (table : HashTable) (townData : Town) :
    Option (HashTable × List Message) :=
  match townData with
  | nil => none
  | node l rec r h =>
    match insertProbe table (hash rec.town) TABLE_SIZE (hash rec.town) with
    | Probe.free index =>
      some (table.set index ⟨rec.town, node l rec r h, true⟩, [])
    | Probe.full => some (table, [Message.hashTableFull])
    | Probe.outOfFuel => none

/-- How the probing loop of `searchTownInHashTable` ends. -/
inductive Search where
  /-- The entry at `index` matched after `collisions` other slots. -/
  | found (index : Fin TABLE_SIZE) (entry : HashTableEntry) (collisions : Int) : Search
  /-- A `NULL` slot was reached. -/
  | notFound : Search
  deriving DecidableEq, Repr

/-- The `while` loop of `searchTownInHashTable` (main.c:371-379); it has no
wrap-around test, so it is run on fuel: `none` when the fuel is exhausted. -/
def searchProbe (table : HashTable) (town : CString) :
    Nat → Fin TABLE_SIZE → Int → Option Search
  | 0, _, _ => none
  | fuel + 1, index, collisions =>
    match table.entries index with
    | none => some Search.notFound
    | some e =>
      if e.isOccupied ∧ strcmp e.town town = 0 then some (Search.found index e collisions)
      else searchProbe table town fuel (nextIndex index) (collisions + 1)

/-- `searchTownInHashTable` (main.c:366): what is printed; `none` when the
loop does not end within `fuel` iterations. -/
def searchTownInHashTable (fuel : Nat) (table : HashTable) (town : CString) :
    Option (List Message) :=
  match searchProbe table town fuel (hash town) 0 with
  | none => none
  | some (Search.found _ e c) => some [Message.townFound e.town, Message.collisions c]
  | some Search.notFound => some [Message.townNotFound]

/-- The payload a `Town *` refers to; `none` for `NULL`. -/
def payload : Town → Option Record
  | nil => none
  | node _ rec _ _ => some rec

/-- The slot `(start + j) % TABLE_SIZE`, the `j`-th of the probe sequence. -/
def slotAt (start : Fin TABLE_SIZE) (j : Nat) : Fin TABLE_SIZE :=
  ⟨(start.val + j) % TABLE_SIZE, Nat.mod_lt _ (by decide)⟩

/-- A table all of whose slots hold an entry for Hezma, as ten calls of
`insertIntoHashTable` with the same node leave it. -/
def fullTable : HashTable := ⟨fun _ => some ⟨hezma.town, newTown hezma, true⟩⟩

/-- The table after Hezma's node has been inserted once into the empty table. -/
def hezmaTable : HashTable := createHashTable.set 1 ⟨hezma.town, newTown hezma, true⟩

/-- The paired insert of `main` (main.c:460-461, 499-500) followed by a search
of the hash table for the same town: the tree insert returns, `findTown` on
the new root is not `NULL`, and the search reports the town found at an entry
with that town whose `townData` has the field values of the node `findTown`
returns. -/
def pairedInsertConsistent (fuel : Nat) (t : Town) (h : HashTable) (r : Record) : Prop :=
  ∃ t1 h1 out i e c, insert t r = some t1 ∧ findTown t1 r.town ≠ nil ∧
    insertIntoHashTable h (findTown t1 r.town) = some (h1, out) ∧
    searchProbe h1 r.town fuel (hash r.town) 0 = some (Search.found i e c) ∧
    searchTownInHashTable fuel h1 r.town =
      some [Message.townFound r.town, Message.collisions c] ∧
    h1.entries i = some e ∧ e.town = r.town ∧
    payload e.townData = payload (findTown t1 r.town)

/-- A table whose slot 1 holds an entry for Hezma that refers to a node with
population 1. -/
def staleTable : HashTable :=
  createHashTable.set 1
    ⟨hezma.town, node nil ⟨str "AlQuds", str "Hezma", 1, 550, str "yes"⟩ nil 1, true⟩

/-- The table paired with `threeTowns`: Hezma in slot 1, Asira in slot 6,
Qatanna (which collides with Hezma) in slot 2. -/
def threeTable : HashTable :=
  ((createHashTable.set 1 ⟨hezma.town, findTown threeTowns hezma.town, true⟩).set 6
    ⟨asira.town, findTown threeTowns asira.town, true⟩).set 2
    ⟨qatanna.town, findTown threeTowns qatanna.town, true⟩

/-- How the probing loop of `deleteFromHashTable` ends. -/
inductive Removal where
  /-- The entry at `index` matched: it is freed and the slot set to `NULL`. -/
  | hit (index : Fin TABLE_SIZE) : Removal
  /-- A `NULL` slot was reached, or the index came back to `originalIndex`. -/
  | miss : Removal
  /-- More iterations than the fuel allows. -/
  | outOfFuel : Removal
  deriving DecidableEq, Repr

/-- The `while` loop of `deleteFromHashTable` (main.c:278-290); one unit of
fuel per evaluation of the loop condition. -/
def deleteProbe (table : HashTable) (town : CString) (originalIndex : Fin TABLE_SIZE) :
    Nat → Fin TABLE_SIZE → Removal
  | 0, _ => Removal.outOfFuel
  | fuel + 1, index =>
    match table.entries index with
    | none => Removal.miss
    | some e =>
      if e.isOccupied ∧ strcmp e.town town = 0 then Removal.hit index
      else if nextIndex index = originalIndex then Removal.miss
      else deleteProbe table town originalIndex fuel (nextIndex index)

/-- `entries[index] = NULL`. -/
def HashTable.clear (table : HashTable) (index : Fin TABLE_SIZE) : HashTable :=
  ⟨fun i => if i = index then none else table.entries i⟩

/-- `deleteFromHashTable` (main.c:273): the table after the call and what was
printed.  The loop gets `TABLE_SIZE` units of fuel, which it never exhausts
(`deleteProbe_fuel`); `none` stands for that impossible case only. -/
def deleteFromHashTable (table : HashTable) (town : CString) :
    Option (HashTable × List Message) :=
  match deleteProbe table town (hash town) TABLE_SIZE (hash town) with
  | Removal.hit index => some (table.clear index, [Message.townDeleted])
  | Removal.miss => some (table, [Message.townNotFound])
  | Removal.outOfFuel => none

/-- A mutating call on the hash table. -/
inductive TableOp where
  | insert (townData : Town) : TableOp
  | delete (town : CString) : TableOp
  deriving DecidableEq, Repr

/-- One call on the table; what is printed is dropped. -/
def applyTableOp (table : HashTable) : TableOp → Option HashTable
  | TableOp.insert townData => (insertIntoHashTable table townData).map Prod.fst
  | TableOp.delete town => (deleteFromHashTable table town).map Prod.fst

/-- A finite sequence of calls, run from `table`. -/
def runTableOps : List TableOp → HashTable → Option HashTable
  | [], table => some table
  | op :: ops, table => (applyTableOp table op).bind (runTableOps ops)

/-- Every entry of the table has its `isOccupied` flag set, as every entry
made by `insertIntoHashTable` has. -/
def flagged (table : HashTable) : Prop :=
  ∀ i, ∀ e ∈ table.entries i, e.isOccupied = true

instance flaggedDecidable (table : HashTable) : Decidable (flagged table) := by
  unfold flagged; infer_instance

/-- The ten slots of the table, in order. -/
def slots (table : HashTable) : List (Option HashTableEntry) := List.ofFn table.entries

/-- The table after Hezma's node, then Qatanna's (same start slot 1), have been
inserted into the empty table and Hezma has been deleted: slot 1 is `NULL`
again and Qatanna sits in slot 2. -/
def gapTable : HashTable :=
  ((createHashTable.set 1 ⟨hezma.town, newTown hezma, true⟩).set 2
    ⟨qatanna.town, newTown qatanna, true⟩).clear 1

/-- `listTownsByPopulation` (main.c:306): the records printed, in order. -/
def listTownsByPopulation : Town → Int → List Record
  | nil, _ => []
  | node l rec r _, population =>
    listTownsByPopulation l population ++
      (if rec.population > population then [rec] else []) ++
      listTownsByPopulation r population

/-- `listTownsByMunicipality` (main.c:318): the records printed, in order. -/
def listTownsByMunicipality : Town → CString → List Record
  | nil, _ => []
  | node l rec r _, hasMunicipality =>
    listTownsByMunicipality l hasMunicipality ++
      (if strcmp rec.hasMunicipality hasMunicipality = 0 then [rec] else []) ++
      listTownsByMunicipality r hasMunicipality

/-- The accumulation the spec describes for the hash: `h := 31 * h + c` over
the bytes, from 0, with no modulus. -/
def polynomial (bytes : List Nat) : Nat :=
  bytes.foldl (fun h c => 31 * h + c) 0

/-- The table paired with `fourTowns`: `threeTable` with Yabad, which collides
with Hezma and Qatanna, in slot 3. -/
def fourTable : HashTable :=
  threeTable.set 3 ⟨yabad.town, findTown fourTowns yabad.town, true⟩

/-- Slot number `m` of the probe sequence of `town` holds an occupied entry
for `town`, and the slots before it hold entries (none is `NULL`) that are
not occupied entries for `town`. -/
def firstMatch (table : HashTable) (town : CString) (m : Nat) : Prop :=
  m < TABLE_SIZE ∧
    (∀ i, i < m → ∃ e1 ∈ table.entries (slotAt (hash town) i),
      ¬ (e1.isOccupied = true ∧ e1.town = town)) ∧
    ∃ e ∈ table.entries (slotAt (hash town) m), e.isOccupied = true ∧ e.town = town

instance firstMatchDecidable (table : HashTable) (town : CString) (m : Nat) :
    Decidable (firstMatch table town m) := by
  unfold firstMatch; infer_instance

/-- The largest value the accumulation of `hash` can reach after `n` ASCII
bytes: `hashBound 5 = 121196735`. -/
def hashBound : Nat → Nat
  | 0 => 0
  | n + 1 => 31 * hashBound n + 127

/-- The left child, `node->left`; `nil` stands in for a `NULL` node. -/
def leftOf : Town → Town
  | nil => nil
  | node l _ _ _ => l

/-- The right child, `node->right`; `nil` stands in for a `NULL` node. -/
def rightOf : Town → Town
  | nil => nil
  | node _ _ r _ => r

/-- Lines 109-135 of `insert`, seen from a pointer to `node` taken before the
call: what that node is afterwards.  `insertRebalance` gives the pointer
returned; after `rightRotate(node)` the node is the right child of the
returned root, after `leftRotate(node)` its left child, and without a
rotation it is the returned root itself. -/
def insertRebalanceKept (town : CString) : Town → Option Town
  | nil => none
  | node l rec r _ =>
    let nd := node l rec r (1 + max (height l) (height r))
    let balance := getBalance nd
    if balance > 1 then
      match l with
      | nil => none
      | node _ lrec _ _ =>
        if strcmp town lrec.town < 0 then (rightRotate nd).map rightOf
        else if strcmp town lrec.town > 0 then
          ((leftRotate l).bind fun l1 =>
            rightRotate (node l1 rec r (1 + max (height l) (height r)))).map rightOf
        else some nd
    else if balance < -1 then
      match r with
      | nil => none
      | node _ rrec _ _ =>
        if strcmp town rrec.town > 0 then (leftRotate nd).map leftOf
        else if strcmp town rrec.town < 0 then
          ((rightRotate r).bind fun r1 =>
            leftRotate (node l rec r1 (1 + max (height l) (height r)))).map leftOf
        else some nd
    else some nd

/-- `insert` (main.c:97) seen from a caller that keeps its old pointer `node`
and drops the pointer returned: what the old pointer refers to after the call.
A `NULL` pointer stays `NULL`; a node is updated in place and may have been
rotated below the returned root. -/
def insertKept : Town → Record → Option Town
  | nil, _ => some nil
  | node l rec rt h, r =>
    if strcmp r.town rec.town < 0 then
      (insert l r).bind fun l1 => insertRebalanceKept r.town (node l1 rec rt h)
    else if strcmp r.town rec.town > 0 then
      (insert rt r).bind fun r1 => insertRebalanceKept r.town (node l rec r1 h)
    else some (node l rec rt h)

/-- The variables `root` and `hashTable` of `main`. -/
structure App where
  root : Town
  hashTable : HashTable

/-- `insertNewRecordIntoHashTable` (main.c:385) with the record read by `scanf`
as an argument.  `root` is the function's own copy of the caller's pointer:
the result is the table, the tree the function's `root` refers to at the end,
and what was printed by `insertIntoHashTable`. -/
def insertNewRecordIntoHashTable (table : HashTable) (root : Town) (r : Record) :
    Option (HashTable × Town × List Message) :=
  (insert root r).bind fun root1 =>
    (insertIntoHashTable table (findTown root1 r.town)).map fun p => (p.1, root1, p.2)

/-- Menu option 12 of `main` (main.c:584-588):
`insertNewRecordIntoHashTable(hashTable, root)`; the pointer returned by
`insert` inside the function is not handed back, so `main` keeps its old
`root` pointer, which afterwards refers to `insertKept root r`. -/
def menuInsertRecord (app : App) (r : Record) : Option App :=
  (insertNewRecordIntoHashTable app.hashTable app.root r).bind fun p =>
    (insertKept app.root r).map fun kept => ⟨kept, p.1⟩

/-- Menu option 1 of `main` (main.c:488-503):
`root = insert(root, ...); insertIntoHashTable(hashTable, findTown(root, town))`. -/
def menuInsertTown (app : App) (r : Record) : Option App :=
  (insert app.root r).bind fun root1 =>
    (insertIntoHashTable app.hashTable (findTown root1 r.town)).map fun p => ⟨root1, p.1⟩

/-- The tree after inserting Asira and Hezma into the empty tree. -/
def twoTowns : Town := node nil asira (node nil hezma nil 1) 2

/-- The table paired with `twoTowns`: Asira in slot 6, Hezma in slot 1. -/
def twoTable : HashTable :=
  (createHashTable.set 6 ⟨asira.town, findTown twoTowns asira.town, true⟩).set 1
    ⟨hezma.town, findTown twoTowns hezma.town, true⟩

/-- `isspace` in the C locale: space, `\t`, `\n`, `\v`, `\f`, `\r`. -/
def isSpace (c : Nat) : Bool := decide (c = 32 ∨ (9 ≤ c ∧ c ≤ 13))

/-- `isdigit`. -/
def isDigit (c : Nat) : Bool := decide (48 ≤ c ∧ c ≤ 57)

/-- The decimal digits of `n` put in front of `acc`, most significant first;
`fuel ≥ n` is more than enough. -/
def showNatAux : Nat → Nat → List Nat → List Nat
  | 0, n, acc => (48 + n % 10) :: acc
  | fuel + 1, n, acc =>
    if n < 10 then (48 + n) :: acc
    else showNatAux fuel (n / 10) ((48 + n % 10) :: acc)

/-- What `%d` prints for a number that is not negative. -/
def showNat (n : Nat) : List Nat := showNatAux n n []

/-- What `%d` prints. -/
def showInt : Int → List Nat
  | Int.ofNat n => showNat n
  | Int.negSucc n => 45 :: showNat (n + 1)

/-- The bytes written by
`fprintf(file, "%s:%s:%d:%d:%s\n", district, town, population, elevation, hasMunicipality)`. -/
def formatLine (r : Record) : List Nat :=
  r.district ++ 58 :: (r.town ++ 58 :: (showInt r.population ++ 58 ::
    (showInt r.elevation ++ 58 :: (r.hasMunicipality ++ [10]))))

/-- `saveToFile` (main.c:330): the bytes written to the file. -/
def saveToFile : Town → List Nat
  | nil => []
  | node l rec r _ => saveToFile l ++ (formatLine rec ++ saveToFile r)

/-- The directive `%[^:]` of `fscanf`: the longest run of bytes other than
`:`, which must not be empty; with the stream after it. -/
def scanUntilColon (input : List Nat) : Option CString × List Nat :=
  if input.takeWhile (fun c => c != 58) = [] then (none, input)
  else (some (input.takeWhile fun c => c != 58), input.dropWhile fun c => c != 58)

/-- White space in the format, and the white space skipped before `%d` and
`%s`. -/
def skipSpaces (input : List Nat) : List Nat := input.dropWhile isSpace

/-- The digits read by `%d`, accumulated in base ten, with the stream after
them. -/
def scanDigits : List Nat → Nat → Nat × List Nat
  | [], acc => (acc, [])
  | c :: cs, acc => if isDigit c then scanDigits cs (acc * 10 + (c - 48)) else (acc, c :: cs)

/-- The directive `%d` of `fscanf`: white space is skipped, then an optional
sign and at least one digit are read.  The value is not reduced to the range
of `int`. -/
def scanInt (input : List Nat) : Option Int × List Nat :=
  match skipSpaces input with
  | [] => (none, [])
  | c :: cs =>
    if c = 45 then
      match cs with
      | [] => (none, [])
      | d :: ds =>
        if isDigit d then (some (-((scanDigits (d :: ds) 0).1 : Int)), (scanDigits (d :: ds) 0).2)
        else (none, d :: ds)
    else if c = 43 then
      match cs with
      | [] => (none, [])
      | d :: ds =>
        if isDigit d then (some ((scanDigits (d :: ds) 0).1 : Int), (scanDigits (d :: ds) 0).2)
        else (none, d :: ds)
    else if isDigit c then
      (some ((scanDigits (c :: cs) 0).1 : Int), (scanDigits (c :: cs) 0).2)
    else (none, c :: cs)

/-- The directive `%s` of `fscanf`: white space is skipped, then the longest
run of bytes that are not white space is read, which must not be empty. -/
def scanWord (input : List Nat) : Option CString × List Nat :=
  if (skipSpaces input).takeWhile (fun c => !isSpace c) = [] then (none, skipSpaces input)
  else (some ((skipSpaces input).takeWhile fun c => !isSpace c),
    (skipSpaces input).dropWhile fun c => !isSpace c)

/-- The result of one `fscanf` call: the value returned (`none` for `EOF`,
otherwise the number of items assigned), the five variables after the call
and the stream after the call. -/
structure Scan where
  ret : Option Nat
  vars : Record
  rest : List Nat
  deriving DecidableEq, Repr

/-- `fscanf(file, "%[^:]:%[^:]:%d:%d:%s\n", district, town, &population,
&elevation, hasMunicipality)` (main.c:459) on the five variables `vars` and the
unread part `input` of the file.  A directive that fails ends the call with
the number of items assigned so far, or `EOF` when the file ends before the
first item. -/
def fscanfRecord (vars : Record) (input : List Nat) : Scan :=
  match scanUntilColon input with
  | (none, in0) => ⟨if input = [] then none else some 0, vars, in0⟩
  | (some district, in1) =>
    let v1 := { vars with district := district }
    match in1 with
    | [] => ⟨some 1, v1, []⟩
    | c1 :: in2 =>
      if c1 ≠ 58 then ⟨some 1, v1, c1 :: in2⟩ else
      match scanUntilColon in2 with
      | (none, in20) => ⟨some 1, v1, in20⟩
      | (some town, in3) =>
        let v2 := { v1 with town := town }
        match in3 with
        | [] => ⟨some 2, v2, []⟩
        | c2 :: in4 =>
          if c2 ≠ 58 then ⟨some 2, v2, c2 :: in4⟩ else
          match scanInt in4 with
          | (none, in40) => ⟨some 2, v2, in40⟩
          | (some population, in5) =>
            let v3 := { v2 with population := population }
            match in5 with
            | [] => ⟨some 3, v3, []⟩
            | c3 :: in6 =>
              if c3 ≠ 58 then ⟨some 3, v3, c3 :: in6⟩ else
              match scanInt in6 with
              | (none, in60) => ⟨some 3, v3, in60⟩
              | (some elevation, in7) =>
                let v4 := { v3 with elevation := elevation }
                match in7 with
                | [] => ⟨some 4, v4, []⟩
                | c4 :: in8 =>
                  if c4 ≠ 58 then ⟨some 4, v4, c4 :: in8⟩ else
                  match scanWord in8 with
                  | (none, in80) => ⟨some 4, v4, in80⟩
                  | (some hasMunicipality, in9) =>
                    ⟨some 5, { v4 with hasMunicipality := hasMunicipality }, skipSpaces in9⟩

/-- The reading loop of `main` (main.c:459-462), run on fuel: the loop body is
entered whenever `fscanf` does not return `EOF`.  `vars` are the five
variables of `main`, `input` the unread part of the file.  `none` when a call
dereferences `NULL` or the fuel runs out. -/
def loadLoop : Nat → Record → List Nat → Town → HashTable → Option (Town × HashTable)
  | 0, _, _, _, _ => none
  | fuel + 1, vars, input, root, table =>
    match (fscanfRecord vars input).ret with
    | none => some (root, table)
    | some _ =>
      (insert root (fscanfRecord vars input).vars).bind fun root1 =>
        (insertIntoHashTable table
            (findTown root1 (fscanfRecord vars input).vars.town)).bind fun p =>
          loadLoop fuel (fscanfRecord vars input).vars (fscanfRecord vars input).rest root1 p.1

/-- A text field as the claim wants it: not empty, without `:` and without
white space. -/
def plainText (s : CString) : Prop :=
  s ≠ [] ∧ ∀ c ∈ s, c ≠ 58 ∧ isSpace c = false

instance plainTextDecidable (s : CString) : Decidable (plainText s) := by
  unfold plainText; infer_instance

/-- A record whose text fields are plain and fit their buffers (`char[50]`,
`char[50]`, `char[4]`, one byte being the terminating NUL). -/
def storable (r : Record) : Prop :=
  plainText r.district ∧ plainText r.town ∧ plainText r.hasMunicipality ∧
    r.district.length ≤ 49 ∧ r.town.length ≤ 49 ∧ r.hasMunicipality.length ≤ 3

instance storableDecidable (r : Record) : Decidable (storable r) := by
  unfold storable; infer_instance

/-- The number of nodes of the tree. -/
def size : Town → Nat
  | nil => 0
  | node l _ r _ => size l + 1 + size r

/-- The number of nodes `findTown` (main.c:139) visits: one for each call on a
node that is not `NULL`, along the same path. -/
def findTownVisits : Town → CString → Nat
  | nil, _ => 0
  | node l rec r _, town =>
    if strcmp rec.town town = 0 then 1
    else if strcmp rec.town town < 0 then 1 + findTownVisits r town
    else 1 + findTownVisits l town

/-- One more than the least number of nodes of a tree of height `h` whose
subtrees differ in height by at most one at every node. -/
def minNodesSucc : Nat → Nat
  | 0 => 1
  | 1 => 2
  | h + 2 => minNodesSucc (h + 1) + minNodesSucc h

/-- The loop of `printHashTableStats` (main.c:355-360): the number of slots
that are not `NULL` and flagged occupied, from which the load factor
`count / TABLE_SIZE` is printed. -/
def occupiedCount (table : HashTable) : Nat :=
  (List.finRange TABLE_SIZE).countP fun i => occupied table i

/-! ## Order properties of `strcmp` -/

theorem strcmp_self (a : CString) : strcmp a a = 0 := by
  induction a with
  | nil => rfl
  | cons x xs ih => simp [strcmp, ih]

theorem strcmp_eq_zero : ∀ {a b : CString}, strcmp a b = 0 → a = b
  | [], [], _ => rfl
  | [], _ :: _, h => by simp [strcmp] at h
  | _ :: _, [], h => by simp [strcmp] at h
  | x :: xs, y :: ys, h => by
    unfold strcmp at h
    split_ifs at h with h1 h2
    · omega
    · have hxy : x = y := by omega
      rw [hxy, strcmp_eq_zero h]

theorem strcmp_eq_zero_iff {a b : CString} : strcmp a b = 0 ↔ a = b :=
  ⟨strcmp_eq_zero, fun h => h ▸ strcmp_self a⟩

theorem strcmp_swap : ∀ a b : CString, strcmp b a = - strcmp a b
  | [], [] => rfl
  | [], _ :: _ => rfl
  | _ :: _, [] => rfl
  | x :: xs, y :: ys => by
    unfold strcmp
    split_ifs <;> first | omega | exact strcmp_swap xs ys

theorem strcmp_gt_iff {a b : CString} : strcmp a b > 0 ↔ strcmp b a < 0 := by
  rw [strcmp_swap a b]; omega

theorem strcmp_trans : ∀ {a b c : CString}, strcmp a b < 0 → strcmp b c < 0 → strcmp a c < 0
  | [], [], _, h, _ => by simp [strcmp] at h
  | [], _ :: _, [], _, h => by simp [strcmp] at h
  | [], _ :: _, _ :: _, _, _ => by simp [strcmp]
  | _ :: _, [], _, h, _ => by simp [strcmp] at h
  | _ :: _, _ :: _, [], _, h => by simp [strcmp] at h
  | x :: xs, y :: ys, z :: zs, h1, h2 => by
    unfold strcmp at h1 h2 ⊢
    split_ifs at h1 h2 ⊢ <;> first | omega | exact strcmp_trans h1 h2

theorem strcmp_irrefl (a : CString) : ¬ strcmp a a < 0 := by
  rw [strcmp_self]; decide

/-! ## Heights and rotations -/

theorem max_eq (a b : Int) : max a b = Max.max a b := by
  unfold max; split_ifs <;> omega

theorem height_nil : height nil = 0 := rfl

theorem height_node (l r : Town) (d : Record) (h : Int) : height (node l d r h) = h := rfl

theorem getBalance_node (l r : Town) (d : Record) (h : Int) :
    getBalance (node l d r h) = height l - height r := rfl

theorem rightRotate_node (xl T2 yr : Town) (xrec yrec : Record) (xh yh : Int) :
    rightRotate (node (node xl xrec T2 xh) yrec yr yh) =
      some (node xl xrec (node T2 yrec yr (max (height T2) (height yr) + 1))
        (max (height xl) (max (height T2) (height yr) + 1) + 1)) := rfl

theorem leftRotate_node (xl T2 yr : Town) (xrec yrec : Record) (xh yh : Int) :
    leftRotate (node xl xrec (node T2 yrec yr yh) xh) =
      some (node (node xl xrec T2 (max (height xl) (height T2) + 1)) yrec yr
        (max (max (height xl) (height T2) + 1) (height yr) + 1)) := rfl

theorem deleteRebalance_node (l r : Town) (d : Record) (h0 : Int) :
    deleteRebalance (node l d r h0) =
      if height l - height r > 1 then
        if getBalance l ≥ 0 then rightRotate (node l d r (1 + max (height l) (height r)))
        else (leftRotate l).bind fun l1 =>
          rightRotate (node l1 d r (1 + max (height l) (height r)))
      else if height l - height r < -1 then
        if getBalance r ≤ 0 then leftRotate (node l d r (1 + max (height l) (height r)))
        else (rightRotate r).bind fun r1 =>
          leftRotate (node l d r1 (1 + max (height l) (height r)))
      else some (node l d r (1 + max (height l) (height r))) := rfl

theorem avl_height_nonneg : ∀ {t : Town}, avl t → 0 ≤ height t
  | nil, _ => by simp [height_nil]
  | node l _ r h, ht => by
    obtain ⟨hl, hr, hh, _, _⟩ := ht
    have := avl_height_nonneg hl
    have := avl_height_nonneg hr
    simp only [height_nil, height_node, max_eq] at *
    omega

theorem avl_node_height_pos {l r : Town} {d : Record} {h : Int} (ht : avl (node l d r h)) :
    1 ≤ h := by
  obtain ⟨hl, hr, hh, _, _⟩ := ht
  have := avl_height_nonneg hl
  have := avl_height_nonneg hr
  rw [max_eq] at hh
  omega

theorem rightRotate_inOrder {t t1 : Town} (h : rightRotate t = some t1) :
    inOrder t1 = inOrder t := by
  unfold rightRotate at h
  split at h
  · cases h; simp [inOrder]
  · cases h

theorem leftRotate_inOrder {t t1 : Town} (h : leftRotate t = some t1) :
    inOrder t1 = inOrder t := by
  unfold leftRotate at h
  split at h
  · cases h; simp [inOrder]
  · cases h

/-- The rebalancing step of `deleteTown` on a node whose subtrees are AVL and
differ in height by at most two. -/
theorem deleteRebalance_spec (l r : Town) (d : Record) (h0 : Int)
    (hl : avl l) (hr : avl r) (h1 : -2 ≤ height l - height r) (h2 : height l - height r ≤ 2) :
    ∃ t1, deleteRebalance (node l d r h0) = some t1 ∧ avl t1 ∧
      inOrder t1 = inOrder l ++ d :: inOrder r ∧
      (height t1 = 1 + Max.max (height l) (height r) ∨
        (height t1 = Max.max (height l) (height r) ∧
          (height l - height r = 2 ∨ height l - height r = -2))) ∧
      (-1 ≤ height l - height r → height l - height r ≤ 1 →
        t1 = node l d r (1 + max (height l) (height r))) := by
  have hl0 := avl_height_nonneg hl
  have hr0 := avl_height_nonneg hr
  by_cases hb1 : height l - height r > 1
  · cases l with
    | nil => simp only [height_nil, height_node] at hb1; omega
    | node ll ld lr lh =>
      obtain ⟨hll, hlr, hlh, hlb1, hlb2⟩ := hl
      have hll0 := avl_height_nonneg hll
      have hlr0 := avl_height_nonneg hlr
      by_cases hg : height ll - height lr ≥ 0
      · refine ⟨_, by rw [deleteRebalance_node, if_pos hb1, getBalance_node, if_pos hg,
          rightRotate_node], ?_, by simp [inOrder], ?_, ?_⟩
        · simp only [avl, height_nil, height_node, max_eq] at *
          refine ⟨hll, ⟨hlr, hr, ?_, ?_, ?_⟩, ?_, ?_, ?_⟩ <;> omega
        · simp only [height_nil, height_node, max_eq] at *; omega
        · intro _ _; omega
      · cases lr with
        | nil => simp only [height_nil, height_node] at hg; omega
        | node lrl lrd lrr lrh =>
          obtain ⟨hlrl, hlrr, hlrh, hlrb1, hlrb2⟩ := hlr
          have := avl_height_nonneg hlrl
          have := avl_height_nonneg hlrr
          refine ⟨_, by rw [deleteRebalance_node, if_pos hb1, getBalance_node, if_neg hg,
            leftRotate_node, Option.some_bind, rightRotate_node], ?_, by simp [inOrder], ?_, ?_⟩
          · simp only [avl, height_nil, height_node, max_eq] at *
            refine ⟨⟨hll, hlrl, ?_, ?_, ?_⟩, ⟨hlrr, hr, ?_, ?_, ?_⟩, ?_, ?_, ?_⟩ <;> omega
          · simp only [height_nil, height_node, max_eq] at *; omega
          · intro _ _; omega
  · by_cases hb2 : height l - height r < -1
    · cases r with
      | nil => simp only [height_nil, height_node] at hb2; omega
      | node rl rd rr rh =>
        obtain ⟨hrl, hrr, hrh, hrb1, hrb2⟩ := hr
        have hrl0 := avl_height_nonneg hrl
        have hrr0 := avl_height_nonneg hrr
        by_cases hg : height rl - height rr ≤ 0
        · refine ⟨_, by rw [deleteRebalance_node, if_neg hb1, if_pos hb2, getBalance_node,
            if_pos hg, leftRotate_node], ?_, by simp [inOrder], ?_, ?_⟩
          · simp only [avl, height_nil, height_node, max_eq] at *
            refine ⟨⟨hl, hrl, ?_, ?_, ?_⟩, hrr, ?_, ?_, ?_⟩ <;> omega
          · simp only [height_nil, height_node, max_eq] at *; omega
          · intro _ _; omega
        · cases rl with
          | nil => simp only [height_nil, height_node] at hg; omega
          | node rll rld rlr rlh =>
            obtain ⟨hrll, hrlr, hrlh, hrlb1, hrlb2⟩ := hrl
            have := avl_height_nonneg hrll
            have := avl_height_nonneg hrlr
            refine ⟨_, by rw [deleteRebalance_node, if_neg hb1, if_pos hb2, getBalance_node,
              if_neg hg, rightRotate_node, Option.some_bind, leftRotate_node], ?_, by simp [inOrder], ?_, ?_⟩
            · simp only [avl, height_nil, height_node, max_eq] at *
              refine ⟨⟨hl, hrll, ?_, ?_, ?_⟩, ⟨hrlr, hrr, ?_, ?_, ?_⟩, ?_, ?_, ?_⟩ <;> omega
            · simp only [height_nil, height_node, max_eq] at *; omega
            · intro _ _; omega
    · refine ⟨_, by rw [deleteRebalance_node, if_neg hb1, if_neg hb2],
        ?_, by simp [inOrder], ?_, ?_⟩
      · exact ⟨hl, hr, rfl, by omega, by omega⟩
      · left; rw [height_node, max_eq]
      · intro _ _; rfl

theorem deleteTown_node (l r : Town) (d : Record) (h : Int) (town : CString) :
    deleteTown (node l d r h) town =
      if strcmp town d.town < 0 then
        (deleteTown l town).bind fun l1 => deleteRebalance (node l1 d r h)
      else if strcmp town d.town > 0 then
        (deleteTown r town).bind fun r1 => deleteRebalance (node l d r1 h)
      else
        match l, r with
        | nil, nil => some nil
        | node ll lrec lr lh, nil => deleteRebalance (node ll lrec lr lh)
        | nil, node rl rrec rr rh => deleteRebalance (node rl rrec rr rh)
        | node ll lrec lr lh, node rl rrec rr rh =>
          (deleteTown (node rl rrec rr rh) (leftmost rl rrec).town).bind fun r1 =>
            deleteRebalance (node (node ll lrec lr lh) (leftmost rl rrec) r1 h) := by
  cases l <;> cases r <;> rfl

/-- The tree returned by `deleteTown` on an AVL tree is AVL, and at most one
level lower. -/
theorem deleteTown_avl (t : Town) (k : CString) (ht : avl t) :
    ∃ t1, deleteTown t k = some t1 ∧ avl t1 ∧
      (height t1 = height t ∨ height t1 + 1 = height t) := by
  induction t generalizing k with
  | nil => exact ⟨nil, rfl, trivial, Or.inl rfl⟩
  | node l d r h ihl ihr =>
    obtain ⟨hl, hr, hh, hb1, hb2⟩ := ht
    have hl0 := avl_height_nonneg hl
    have hr0 := avl_height_nonneg hr
    rw [deleteTown_node]
    by_cases hlt : strcmp k d.town < 0
    · obtain ⟨l1, e1, hl1, hh1⟩ := ihl k hl
      obtain ⟨t1, e2, ht1, -, hht, -⟩ :=
        deleteRebalance_spec l1 r d h hl1 hr (by omega) (by omega)
      refine ⟨t1, by rw [if_pos hlt, e1, Option.some_bind, e2], ht1, ?_⟩
      rw [height_node, hh, max_eq]
      omega
    · by_cases hgt : strcmp k d.town > 0
      · obtain ⟨r1, e1, hr1, hh1⟩ := ihr k hr
        obtain ⟨t1, e2, ht1, -, hht, -⟩ :=
          deleteRebalance_spec l r1 d h hl hr1 (by omega) (by omega)
        refine ⟨t1, by rw [if_neg hlt, if_pos hgt, e1, Option.some_bind, e2], ht1, ?_⟩
        rw [height_node, hh, max_eq]
        omega
      · rw [if_neg hlt, if_neg hgt]
        cases l with
        | nil =>
          cases r with
          | nil =>
            refine ⟨nil, rfl, trivial, ?_⟩
            rw [height_node, hh, max_eq, height_nil]
            omega
          | node rl rd rr rh =>
            obtain ⟨hrl, hrr, hrh, hrb1, hrb2⟩ := hr
            obtain ⟨t1, e2, ht1, -, -, hsame⟩ :=
              deleteRebalance_spec rl rr rd rh hrl hrr (by omega) (by omega)
            refine ⟨t1, e2, ht1, ?_⟩
            rw [hsame hrb1 hrb2]
            simp only [height_node, height_nil, max_eq] at *
            omega
        | node ll ld lr lh =>
          cases r with
          | nil =>
            obtain ⟨hll, hlr, hlh, hlb1, hlb2⟩ := hl
            obtain ⟨t1, e2, ht1, -, -, hsame⟩ :=
              deleteRebalance_spec ll lr ld lh hll hlr (by omega) (by omega)
            refine ⟨t1, e2, ht1, ?_⟩
            rw [hsame hlb1 hlb2]
            simp only [height_node, height_nil, max_eq] at *
            omega
          | node rl rd rr rh =>
            obtain ⟨r1, e1, hr1, hh1⟩ := ihr (leftmost rl rd).town hr
            obtain ⟨t1, e2, ht1, -, hht, -⟩ :=
              deleteRebalance_spec (node ll ld lr lh) r1 (leftmost rl rd) h hl hr1
                (by omega) (by omega)
            refine ⟨t1, ?_, ht1, ?_⟩
            · show (deleteTown (node rl rd rr rh) (leftmost rl rd).town).bind _ = _
              rw [e1, Option.some_bind, e2]
            · rw [height_node, hh, max_eq]
              omega

theorem insertRebalance_balanced (k : CString) (l r : Town) (d : Record) (h0 : Int)
    (h1 : -1 ≤ height l - height r) (h2 : height l - height r ≤ 1) :
    insertRebalance k (node l d r h0) = some (node l d r (1 + max (height l) (height r))) := by
  have e1 : ¬ getBalance (node l d r (1 + max (height l) (height r))) > 1 := by
    rw [getBalance_node]; omega
  have e2 : ¬ getBalance (node l d r (1 + max (height l) (height r))) < -1 := by
    rw [getBalance_node]; omega
  simp only [insertRebalance, if_neg e1, if_neg e2]

theorem insertRebalance_left (k : CString) (ll lr r : Town) (ld d : Record) (lh h0 : Int)
    (hb : lh - height r > 1) :
    insertRebalance k (node (node ll ld lr lh) d r h0) =
      if strcmp k ld.town < 0 then
        rightRotate (node (node ll ld lr lh) d r (1 + max lh (height r)))
      else if strcmp k ld.town > 0 then
        (leftRotate (node ll ld lr lh)).bind fun l1 =>
          rightRotate (node l1 d r (1 + max lh (height r)))
      else some (node (node ll ld lr lh) d r (1 + max lh (height r))) := by
  have e1 : getBalance (node (node ll ld lr lh) d r (1 + max lh (height r))) > 1 := by
    rw [getBalance_node, height_node]; exact hb
  simp only [insertRebalance, height_node, if_pos e1]

theorem insertRebalance_right (k : CString) (l rl rr : Town) (rd d : Record) (rh h0 : Int)
    (hb : height l - rh < -1) :
    insertRebalance k (node l d (node rl rd rr rh) h0) =
      if strcmp k rd.town > 0 then
        leftRotate (node l d (node rl rd rr rh) (1 + max (height l) rh))
      else if strcmp k rd.town < 0 then
        (rightRotate (node rl rd rr rh)).bind fun r1 =>
          leftRotate (node l d r1 (1 + max (height l) rh))
      else some (node l d (node rl rd rr rh) (1 + max (height l) rh)) := by
  have e1 : ¬ getBalance (node l d (node rl rd rr rh) (1 + max (height l) rh)) > 1 := by
    rw [getBalance_node, height_node]; omega
  have e2 : getBalance (node l d (node rl rd rr rh) (1 + max (height l) rh)) < -1 := by
    rw [getBalance_node, height_node]; exact hb
  simp only [insertRebalance, height_node, if_neg e1, if_pos e2]

/-- The rebalancing step of `insert` after an insertion into the left subtree. -/
theorem insertRebalance_spec_left (k : CString) (l1 r : Town) (d : Record) (h0 : Int)
    (hl : avl l1) (hr : avl r) (h1 : -1 ≤ height l1 - height r)
    (h2 : height l1 - height r ≤ 2) (hg : height l1 - height r = 2 → grewToward k l1) :
    ∃ t1, insertRebalance k (node l1 d r h0) = some t1 ∧ avl t1 ∧
      (height l1 - height r ≤ 1 → t1 = node l1 d r (1 + max (height l1) (height r))) ∧
      (height l1 - height r = 2 → height t1 = height l1) := by
  have hl0 := avl_height_nonneg hl
  have hr0 := avl_height_nonneg hr
  by_cases hb : height l1 - height r ≤ 1
  · refine ⟨_, insertRebalance_balanced k l1 r d h0 h1 hb, ⟨hl, hr, rfl, h1, hb⟩,
      fun _ => rfl, fun h => by omega⟩
  · have hb2 : height l1 - height r = 2 := by omega
    have hgr := hg hb2
    cases l1 with
    | nil => exact absurd hgr (by simp [grewToward])
    | node ll ld lr lh =>
      obtain ⟨hll, hlr, hlh, hlb1, hlb2⟩ := hl
      have hll0 := avl_height_nonneg hll
      have hlr0 := avl_height_nonneg hlr
      rw [height_node] at hb2
      rw [insertRebalance_left k ll lr r ld d lh h0 (by omega)]
      rcases hgr with ⟨hk, hside⟩ | ⟨hk, hside⟩
      · refine ⟨_, by rw [if_pos hk, rightRotate_node], ?_, fun h => absurd h hb, fun _ => ?_⟩
        · simp only [avl, height_nil, height_node, max_eq] at *
          refine ⟨hll, ⟨hlr, hr, ?_, ?_, ?_⟩, ?_, ?_, ?_⟩ <;> omega
        · simp only [height_nil, height_node, max_eq] at *; omega
      · have hk1 : ¬ strcmp k ld.town < 0 := by omega
        cases lr with
        | nil => rw [height_nil] at hside; omega
        | node lrl lrd lrr lrh =>
          obtain ⟨hlrl, hlrr, hlrh, hlrb1, hlrb2⟩ := hlr
          have := avl_height_nonneg hlrl
          have := avl_height_nonneg hlrr
          refine ⟨_, by rw [if_neg hk1, if_pos hk, leftRotate_node, Option.some_bind,
            rightRotate_node], ?_, fun h => absurd h hb, fun _ => ?_⟩
          · simp only [avl, height_nil, height_node, max_eq] at *
            refine ⟨⟨hll, hlrl, ?_, ?_, ?_⟩, ⟨hlrr, hr, ?_, ?_, ?_⟩, ?_, ?_, ?_⟩ <;> omega
          · simp only [height_nil, height_node, max_eq] at *; omega

/-- The rebalancing step of `insert` after an insertion into the right subtree. -/
theorem insertRebalance_spec_right (k : CString) (l r1 : Town) (d : Record) (h0 : Int)
    (hl : avl l) (hr : avl r1) (h1 : -1 ≤ height r1 - height l)
    (h2 : height r1 - height l ≤ 2) (hg : height r1 - height l = 2 → grewToward k r1) :
    ∃ t1, insertRebalance k (node l d r1 h0) = some t1 ∧ avl t1 ∧
      (height r1 - height l ≤ 1 → t1 = node l d r1 (1 + max (height l) (height r1))) ∧
      (height r1 - height l = 2 → height t1 = height r1) := by
  have hl0 := avl_height_nonneg hl
  have hr0 := avl_height_nonneg hr
  by_cases hb : height r1 - height l ≤ 1
  · refine ⟨_, insertRebalance_balanced k l r1 d h0 (by omega) (by omega),
      ⟨hl, hr, rfl, by omega, by omega⟩, fun _ => rfl, fun h => by omega⟩
  · have hb2 : height r1 - height l = 2 := by omega
    have hgr := hg hb2
    cases r1 with
    | nil => exact absurd hgr (by simp [grewToward])
    | node rl rd rr rh =>
      obtain ⟨hrl, hrr, hrh, hrb1, hrb2⟩ := hr
      have hrl0 := avl_height_nonneg hrl
      have hrr0 := avl_height_nonneg hrr
      rw [height_node] at hb2
      rw [insertRebalance_right k l rl rr rd d rh h0 (by omega)]
      rcases hgr with ⟨hk, hside⟩ | ⟨hk, hside⟩
      · have hk1 : ¬ strcmp k rd.town > 0 := by omega
        cases rl with
        | nil => rw [height_nil] at hside; omega
        | node rll rld rlr rlh =>
          obtain ⟨hrll, hrlr, hrlh, hrlb1, hrlb2⟩ := hrl
          have := avl_height_nonneg hrll
          have := avl_height_nonneg hrlr
          refine ⟨_, by rw [if_neg hk1, if_pos hk, rightRotate_node, Option.some_bind,
            leftRotate_node], ?_, fun h => absurd h hb, fun _ => ?_⟩
          · simp only [avl, height_nil, height_node, max_eq] at *
            refine ⟨⟨hl, hrll, ?_, ?_, ?_⟩, ⟨hrlr, hrr, ?_, ?_, ?_⟩, ?_, ?_, ?_⟩ <;> omega
          · simp only [height_nil, height_node, max_eq] at *; omega
      · refine ⟨_, by rw [if_pos hk, leftRotate_node], ?_, fun h => absurd h hb, fun _ => ?_⟩
        · simp only [avl, height_nil, height_node, max_eq] at *
          refine ⟨⟨hl, hrl, ?_, ?_, ?_⟩, hrr, ?_, ?_, ?_⟩ <;> omega
        · simp only [height_nil, height_node, max_eq] at *; omega

theorem insert_node (l rt : Town) (d r : Record) (h : Int) :
    insert (node l d rt h) r =
      if strcmp r.town d.town < 0 then
        (insert l r).bind fun l1 => insertRebalance r.town (node l1 d rt h)
      else if strcmp r.town d.town > 0 then
        (insert rt r).bind fun r1 => insertRebalance r.town (node l d r1 h)
      else some (node l d rt h) := rfl

/-- The tree returned by `insert` on an AVL tree is AVL and at most one level
higher; when it is higher, its root leans to the side of the new key. -/
theorem insert_avl (t : Town) (r : Record) (ht : avl t) :
    ∃ t1, insert t r = some t1 ∧ avl t1 ∧
      (height t1 = height t ∨ height t1 = height t + 1) ∧
      (height t1 = height t + 1 → t ≠ nil → grewToward r.town t1) := by
  induction t with
  | nil =>
    refine ⟨newTown r, rfl, ?_, Or.inr rfl, fun _ h => absurd rfl h⟩
    exact ⟨trivial, trivial, by decide, by decide, by decide⟩
  | node l d rt h ihl ihr =>
    obtain ⟨hl, hr, hh, hb1, hb2⟩ := ht
    have hl0 := avl_height_nonneg hl
    have hr0 := avl_height_nonneg hr
    rw [insert_node]
    by_cases hlt : strcmp r.town d.town < 0
    · obtain ⟨l1, e1, hl1, hh1, hg1⟩ := ihl hl
      have hgrew : height l1 - height rt = 2 → grewToward r.town l1 := by
        intro h2
        refine hg1 (by omega) ?_
        rintro rfl
        rw [height_nil] at hh1
        omega
      obtain ⟨t1, e2, ht1, hsame, hrot⟩ :=
        insertRebalance_spec_left r.town l1 rt d h hl1 hr (by omega) (by omega) hgrew
      refine ⟨t1, by rw [if_pos hlt, e1, Option.some_bind, e2], ht1, ?_, ?_⟩
      · by_cases hb : height l1 - height rt ≤ 1
        · rw [hsame hb]
          simp only [height_node, max_eq] at *
          omega
        · rw [hrot (by omega), height_node, hh, max_eq]
          omega
      · intro hgrow _
        by_cases hb : height l1 - height rt ≤ 1
        · rw [hsame hb] at hgrow ⊢
          simp only [height_node, max_eq] at hgrow hh
          exact Or.inl ⟨hlt, by omega⟩
        · rw [hrot (by omega), height_node, hh, max_eq] at hgrow
          omega
    · by_cases hgt : strcmp r.town d.town > 0
      · obtain ⟨r1, e1, hr1, hh1, hg1⟩ := ihr hr
        have hgrew : height r1 - height l = 2 → grewToward r.town r1 := by
          intro h2
          refine hg1 (by omega) ?_
          rintro rfl
          rw [height_nil] at hh1
          omega
        obtain ⟨t1, e2, ht1, hsame, hrot⟩ :=
          insertRebalance_spec_right r.town l r1 d h hl hr1 (by omega) (by omega) hgrew
        refine ⟨t1, by rw [if_neg hlt, if_pos hgt, e1, Option.some_bind, e2], ht1, ?_, ?_⟩
        · by_cases hb : height r1 - height l ≤ 1
          · rw [hsame hb]
            simp only [height_node, max_eq] at *
            omega
          · rw [hrot (by omega), height_node, hh, max_eq]
            omega
        · intro hgrow _
          by_cases hb : height r1 - height l ≤ 1
          · rw [hsame hb] at hgrow ⊢
            simp only [height_node, max_eq] at hgrow hh
            exact Or.inr ⟨hgt, by omega⟩
          · rw [hrot (by omega), height_node, hh, max_eq] at hgrow
            omega
      · refine ⟨node l d rt h, by rw [if_neg hlt, if_neg hgt], ⟨hl, hr, hh, hb1, hb2⟩,
          Or.inl rfl, ?_⟩
        intro hgrow
        omega

/-! ## In-order sequence and the order invariant -/

theorem inOrder_node (l r : Town) (d : Record) (h : Int) :
    inOrder (node l d r h) = inOrder l ++ d :: inOrder r := rfl

theorem insertRebalance_inOrder {k : CString} {t t1 : Town}
    (e : insertRebalance k t = some t1) : inOrder t1 = inOrder t := by
  cases t with
  | nil => cases e
  | node l d r h0 =>
    simp only [insertRebalance] at e
    split_ifs at e with hb1 hb2
    · cases l with
      | nil => cases e
      | node ll ld lr lh =>
        simp only at e
        split_ifs at e with hk1 hk2
        · rw [rightRotate_inOrder e]; rfl
        · obtain ⟨l1, e1, e2⟩ := Option.bind_eq_some.mp e
          rw [rightRotate_inOrder e2, inOrder_node, leftRotate_inOrder e1]; rfl
        · cases e; rfl
    · cases r with
      | nil => cases e
      | node rl rd rr rh =>
        simp only at e
        split_ifs at e with hk1 hk2
        · rw [leftRotate_inOrder e]; rfl
        · obtain ⟨r1, e1, e2⟩ := Option.bind_eq_some.mp e
          rw [leftRotate_inOrder e2, inOrder_node, rightRotate_inOrder e1]; rfl
        · cases e; rfl
    · cases e; rfl

theorem deleteRebalance_inOrder {t t1 : Town}
    (e : deleteRebalance t = some t1) : inOrder t1 = inOrder t := by
  cases t with
  | nil => cases e
  | node l d r h0 =>
    rw [deleteRebalance_node] at e
    split_ifs at e with hb1 hg1 hb2 hg2
    · rw [rightRotate_inOrder e]; rfl
    · obtain ⟨l1, e1, e2⟩ := Option.bind_eq_some.mp e
      rw [rightRotate_inOrder e2, inOrder_node, leftRotate_inOrder e1]; rfl
    · rw [leftRotate_inOrder e]; rfl
    · obtain ⟨r1, e1, e2⟩ := Option.bind_eq_some.mp e
      rw [leftRotate_inOrder e2, inOrder_node, rightRotate_inOrder e1]; rfl
    · cases e; rfl

theorem ascending_append_cons {xs ys : List Record} {d : Record} :
    ascending (xs ++ d :: ys) ↔
      ascending xs ∧ ascending ys ∧ (∀ x ∈ xs, strcmp x.town d.town < 0) ∧
        (∀ y ∈ ys, strcmp d.town y.town < 0) := by
  unfold ascending
  rw [List.pairwise_append, List.pairwise_cons]
  constructor
  · rintro ⟨h1, ⟨h2, h3⟩, h4⟩
    exact ⟨h1, h3, fun x hx => h4 x hx d (List.mem_cons_self _ _), h2⟩
  · rintro ⟨h1, h2, h3, h4⟩
    refine ⟨h1, ⟨h4, h2⟩, fun x hx y hy => ?_⟩
    rcases List.mem_cons.mp hy with rfl | hy
    · exact h3 x hx
    · exact strcmp_trans (h3 x hx) (h4 y hy)

/-- The order invariant of the tree is the strict ascent of its in-order
sequence. -/
theorem bst_iff_ascending (t : Town) : bst t ↔ ascending (inOrder t) := by
  induction t with
  | nil => simp [bst, inOrder, ascending]
  | node l d r h ihl ihr =>
    rw [inOrder_node, ascending_append_cons, ← ihl, ← ihr]
    simp only [bst]

theorem strcmp_ne_of_lt {a b : CString} (h : strcmp a b < 0) : a ≠ b := by
  rintro rfl
  exact strcmp_irrefl a h

theorem strcmp_eq_of_not_lt_gt {a b : CString} (h1 : ¬ strcmp a b < 0)
    (h2 : ¬ strcmp a b > 0) : a = b :=
  strcmp_eq_zero (by omega)

/-- What `insert` does to the in-order sequence of an ordered tree: nothing
when the key is present, otherwise the record is placed between the smaller
and the larger keys. -/
theorem insert_inOrder (t : Town) (r : Record) (t1 : Town) (hb : bst t)
    (e : insert t r = some t1) :
    (inOrder t1 = inOrder t ∧ ∃ x ∈ inOrder t, x.town = r.town) ∨
      ∃ pre post, inOrder t = pre ++ post ∧ inOrder t1 = pre ++ r :: post ∧
        (∀ x ∈ pre, strcmp x.town r.town < 0) ∧ (∀ x ∈ post, strcmp r.town x.town < 0) := by
  induction t generalizing t1 with
  | nil =>
    cases e
    exact Or.inr ⟨[], [], rfl, rfl, by simp, by simp⟩
  | node l d rt h ihl ihr =>
    obtain ⟨hbl, hbr, hlt, hgt⟩ := hb
    rw [insert_node] at e
    split_ifs at e with h1 h2
    · obtain ⟨l1, e1, e2⟩ := Option.bind_eq_some.mp e
      have hio := insertRebalance_inOrder e2
      rw [inOrder_node] at hio
      rcases ihl l1 hbl e1 with ⟨hsame, x, hx, hxk⟩ | ⟨pre, post, hsplit, hnew, hpre, hpost⟩
      · left
        refine ⟨by rw [hio, hsame, inOrder_node], x, ?_, hxk⟩
        rw [inOrder_node]; exact List.mem_append_left _ hx
      · right
        refine ⟨pre, post ++ d :: inOrder rt, ?_, ?_, hpre, ?_⟩
        · rw [inOrder_node, hsplit, List.append_assoc]
        · rw [hio, hnew]; simp
        · intro x hx
          rcases List.mem_append.mp hx with hx | hx
          · exact hpost x hx
          · rcases List.mem_cons.mp hx with rfl | hx
            · exact h1
            · exact strcmp_trans h1 (hgt x hx)
    · obtain ⟨r1, e1, e2⟩ := Option.bind_eq_some.mp e
      have hio := insertRebalance_inOrder e2
      rw [inOrder_node] at hio
      have h2' : strcmp d.town r.town < 0 := strcmp_gt_iff.mp h2
      rcases ihr r1 hbr e1 with ⟨hsame, x, hx, hxk⟩ | ⟨pre, post, hsplit, hnew, hpre, hpost⟩
      · left
        refine ⟨by rw [hio, hsame, inOrder_node], x, ?_, hxk⟩
        rw [inOrder_node]; exact List.mem_append_right _ (List.mem_cons_of_mem _ hx)
      · right
        refine ⟨inOrder l ++ d :: pre, post, ?_, ?_, ?_, hpost⟩
        · rw [inOrder_node, hsplit]; simp
        · rw [hio, hnew]; simp
        · intro x hx
          rcases List.mem_append.mp hx with hx | hx
          · exact strcmp_trans (hlt x hx) h2'
          · rcases List.mem_cons.mp hx with rfl | hx
            · exact h2'
            · exact hpre x hx
    · cases e
      left
      refine ⟨rfl, d, ?_, (strcmp_eq_of_not_lt_gt h1 h2).symm⟩
      rw [inOrder_node]; exact List.mem_append_right _ (List.mem_cons_self _ _)

theorem filter_ne_of_lt {k : CString} {xs : List Record}
    (h : ∀ x ∈ xs, strcmp k x.town < 0) :
    xs.filter (fun x => decide (x.town ≠ k)) = xs := by
  rw [List.filter_eq_self]
  intro x hx
  exact decide_eq_true (strcmp_ne_of_lt (h x hx)).symm

theorem filter_ne_of_gt {k : CString} {xs : List Record}
    (h : ∀ x ∈ xs, strcmp x.town k < 0) :
    xs.filter (fun x => decide (x.town ≠ k)) = xs := by
  rw [List.filter_eq_self]
  intro x hx
  exact decide_eq_true (strcmp_ne_of_lt (h x hx))

theorem leftmost_head (rl rr : Town) (rd : Record) (rh : Int) :
    ∃ tl, inOrder (node rl rd rr rh) = leftmost rl rd :: tl := by
  induction rl generalizing rd rr rh with
  | nil => exact ⟨inOrder rr, rfl⟩
  | node a x b c iha _ =>
    obtain ⟨tl, htl⟩ := iha b x c
    exact ⟨tl ++ rd :: inOrder rr, by rw [inOrder_node, htl]; rfl⟩

/-- What `deleteTown` does to the in-order sequence of an ordered tree: the
records whose town is the key are dropped, the rest stays in place. -/
theorem deleteTown_inOrder (t : Town) (k : CString) (t1 : Town) (hb : bst t)
    (e : deleteTown t k = some t1) :
    inOrder t1 = (inOrder t).filter (fun x => decide (x.town ≠ k)) := by
  induction t generalizing k t1 with
  | nil => cases e; rfl
  | node l d rt h ihl ihr =>
    have hasc := (bst_iff_ascending _).mp hb
    obtain ⟨hbl, hbr, hlt, hgt⟩ := hb
    rw [deleteTown_node] at e
    rw [inOrder_node, List.filter_append, List.filter_cons]
    split_ifs at e with h1 h2
    · obtain ⟨l1, e1, e2⟩ := Option.bind_eq_some.mp e
      rw [deleteRebalance_inOrder e2, inOrder_node, ihl k l1 hbl e1,
        if_pos (decide_eq_true (strcmp_ne_of_lt h1).symm),
        filter_ne_of_lt fun x hx => strcmp_trans h1 (hgt x hx)]
    · obtain ⟨r1, e1, e2⟩ := Option.bind_eq_some.mp e
      have h2' : strcmp d.town k < 0 := strcmp_gt_iff.mp h2
      rw [deleteRebalance_inOrder e2, inOrder_node, ihr k r1 hbr e1,
        if_pos (decide_eq_true (strcmp_ne_of_lt h2')),
        filter_ne_of_gt fun x hx => strcmp_trans (hlt x hx) h2']
    · have hk : k = d.town := strcmp_eq_of_not_lt_gt h1 h2
      subst hk
      rw [if_neg (by simp), filter_ne_of_gt hlt, filter_ne_of_lt hgt]
      cases l with
      | nil =>
        cases rt with
        | nil => cases e; rfl
        | node rl rd rr rh => rw [deleteRebalance_inOrder e]; rfl
      | node ll ld lr lh =>
        cases rt with
        | nil => rw [deleteRebalance_inOrder e]; simp [inOrder]
        | node rl rd rr rh =>
          obtain ⟨r1, e1, e2⟩ := Option.bind_eq_some.mp e
          obtain ⟨tl, htl⟩ := leftmost_head rl rr rd rh
          have hr1 := ihr (leftmost rl rd).town r1 hbr e1
          have hascr := (bst_iff_ascending _).mp hbr
          rw [htl] at hr1 hascr
          rw [List.filter_cons, if_neg (by simp),
            filter_ne_of_lt (List.pairwise_cons.mp hascr).1] at hr1
          rw [deleteRebalance_inOrder e2, inOrder_node, hr1, htl]

/-! ## The invariants along a run -/

theorem insert_bst (t : Town) (r : Record) (t1 : Town) (hb : bst t)
    (e : insert t r = some t1) : bst t1 := by
  rw [bst_iff_ascending] at hb ⊢
  rcases insert_inOrder t r t1 ((bst_iff_ascending t).mpr hb) e with
    ⟨hsame, -⟩ | ⟨pre, post, hsplit, hnew, hpre, hpost⟩
  · rw [hsame]; exact hb
  · rw [hnew, ascending_append_cons]
    rw [hsplit] at hb
    have hp := List.pairwise_append.mp hb
    exact ⟨hp.1, hp.2.1, hpre, hpost⟩

theorem deleteTown_bst (t : Town) (k : CString) (t1 : Town) (hb : bst t)
    (e : deleteTown t k = some t1) : bst t1 := by
  have hio := deleteTown_inOrder t k t1 hb e
  rw [bst_iff_ascending] at hb ⊢
  rw [hio]
  exact List.Pairwise.filter _ hb

theorem applyOp_invariant (t : Town) (op : Op) (ha : avl t) (hb : bst t) :
    ∃ t1, applyOp t op = some t1 ∧ avl t1 ∧ bst t1 := by
  cases op with
  | insert r =>
    obtain ⟨t1, e, ha1, -⟩ := insert_avl t r ha
    exact ⟨t1, e, ha1, insert_bst t r t1 hb e⟩
  | delete k =>
    obtain ⟨t1, e, ha1, -⟩ := deleteTown_avl t k ha
    exact ⟨t1, e, ha1, deleteTown_bst t k t1 hb e⟩

theorem runOps_invariant (ops : List Op) (t : Town) (ha : avl t) (hb : bst t) :
    ∃ t1, runOps ops t = some t1 ∧ avl t1 ∧ bst t1 := by
  induction ops generalizing t with
  | nil => exact ⟨t, rfl, ha, hb⟩
  | cons op ops ih =>
    obtain ⟨t1, e1, ha1, hb1⟩ := applyOp_invariant t op ha hb
    obtain ⟨t2, e2, h2⟩ := ih t1 ha1 hb1
    exact ⟨t2, by rw [runOps, e1, Option.some_bind, e2], h2⟩

/-- C1. Every sequence of `insert` and `deleteTown` calls started on the empty
tree runs to completion, and in the tree it returns every node's cached height
is one more than the larger of its children's heights (empty tree 0, leaf 1)
and the heights of its two children differ by at most one. -/
theorem avl_of_runOps (ops : List Op) :
    ∃ t, runOps ops nil = some t ∧ avl t := by
  obtain ⟨t, e, ha, -⟩ := runOps_invariant ops nil trivial trivial
  exact ⟨t, e, ha⟩

/-- C2. Every sequence of `insert` and `deleteTown` calls started on the empty
tree returns a tree whose in-order traversal lists the town keys in strictly
ascending `strcmp` order, so that no key occurs twice. -/
theorem ascending_of_runOps (ops : List Op) :
    ∃ t, runOps ops nil = some t ∧ ascending (inOrder t) ∧
      ((inOrder t).map Record.town).Nodup := by
  obtain ⟨t, e, -, hb⟩ := runOps_invariant ops nil trivial trivial
  have hasc := (bst_iff_ascending t).mp hb
  refine ⟨t, e, hasc, ?_⟩
  unfold List.Nodup
  rw [List.pairwise_map]
  exact List.Pairwise.imp (fun h => strcmp_ne_of_lt h) hasc

/-! ## Insert, delete and find on an ordered, balanced tree -/

/-- C3. On an ordered AVL tree, inserting a record whose town is not a key
returns a tree whose in-order sequence is the old one with the record, all
five fields as given, placed between the smaller and the larger keys; the
other records are unchanged. -/
theorem insert_new_key (t : Town) (r : Record) (hb : bst t) (ha : avl t)
    (hnew : ∀ x ∈ inOrder t, x.town ≠ r.town) :
    ∃ t1 pre post, insert t r = some t1 ∧ inOrder t = pre ++ post ∧
      inOrder t1 = pre ++ r :: post ∧
      (∀ x ∈ pre, strcmp x.town r.town < 0) ∧ (∀ x ∈ post, strcmp r.town x.town < 0) := by
  obtain ⟨t1, e, -⟩ := insert_avl t r ha
  rcases insert_inOrder t r t1 hb e with ⟨-, x, hx, hxk⟩ | ⟨pre, post, h⟩
  · exact absurd hxk (hnew x hx)
  · exact ⟨t1, pre, post, e, h⟩

/-- Witness for C3: Yabad inserted after Hezma, Asira and Qatanna; the listing
is Asira, Hezma, Qatanna, Yabad. -/
theorem insert_new_key_witness :
    runOps [Op.insert hezma, Op.insert asira, Op.insert qatanna] nil = some threeTowns ∧
    insert threeTowns yabad = some fourTowns ∧
    inOrder fourTowns = [asira, hezma, qatanna, yabad] ∧
    bst threeTowns ∧ avl threeTowns ∧ (∀ x ∈ inOrder threeTowns, x.town ≠ yabad.town) ∧
    ∃ t1 pre post, insert threeTowns yabad = some t1 ∧ inOrder threeTowns = pre ++ post ∧
      inOrder t1 = pre ++ yabad :: post ∧
      (∀ x ∈ pre, strcmp x.town yabad.town < 0) ∧
      (∀ x ∈ post, strcmp yabad.town x.town < 0) :=
  ⟨by decide, by decide, by decide, by decide, by decide, by decide,
    insert_new_key threeTowns yabad (by decide) (by decide) (by decide)⟩

/-- C4. On an ordered AVL tree, deleting a key that is present returns a tree
whose in-order sequence is the old one with exactly the record of that town
removed; the other records keep their place and their fields, also when the
node deleted has two children. -/
theorem deleteTown_present_key (t : Town) (k : CString) (hb : bst t) (ha : avl t)
    (hk : ∃ x ∈ inOrder t, x.town = k) :
    ∃ t1 pre x post, deleteTown t k = some t1 ∧ inOrder t = pre ++ x :: post ∧
      x.town = k ∧ inOrder t1 = pre ++ post ∧ ∀ y ∈ pre ++ post, y.town ≠ k := by
  obtain ⟨t1, e, -⟩ := deleteTown_avl t k ha
  obtain ⟨x, hx, hxk⟩ := hk
  obtain ⟨pre, post, hsplit⟩ := List.append_of_mem hx
  have hio := deleteTown_inOrder t k t1 hb e
  have hasc := (bst_iff_ascending t).mp hb
  rw [hsplit] at hio hasc
  obtain ⟨-, -, hpre, hpost⟩ := ascending_append_cons.mp hasc
  subst hxk
  rw [List.filter_append, List.filter_cons, if_neg (by simp), filter_ne_of_gt hpre,
    filter_ne_of_lt hpost] at hio
  refine ⟨t1, pre, x, post, e, hsplit, rfl, hio, fun y hy => ?_⟩
  rcases List.mem_append.mp hy with hy | hy
  · exact strcmp_ne_of_lt (hpre y hy)
  · exact (strcmp_ne_of_lt (hpost y hy)).symm

/-- Witness for C4: Hezma, the root with two children, deleted after the four
inserts; Asira, Qatanna, Yabad remain in that order. -/
theorem deleteTown_present_key_witness :
    (deleteTown fourTowns hezma.town).map inOrder = some [asira, qatanna, yabad] ∧
    bst fourTowns ∧ avl fourTowns ∧ (∃ x ∈ inOrder fourTowns, x.town = hezma.town) ∧
    ∃ t1 pre x post, deleteTown fourTowns hezma.town = some t1 ∧
      inOrder fourTowns = pre ++ x :: post ∧ x.town = hezma.town ∧
      inOrder t1 = pre ++ post ∧ ∀ y ∈ pre ++ post, y.town ≠ hezma.town :=
  ⟨by decide, by decide, by decide, by decide,
    deleteTown_present_key fourTowns hezma.town (by decide) (by decide) (by decide)⟩

theorem findTown_node (l r : Town) (d : Record) (h : Int) (town : CString) :
    findTown (node l d r h) town =
      if strcmp d.town town = 0 then node l d r h
      else if strcmp d.town town < 0 then findTown r town
      else findTown l town := rfl

/-- The search of `findTown` on an ordered tree, by induction on the tree. -/
theorem findTown_spec (t : Town) (k : CString) (hb : bst t) :
    ((∃ x ∈ inOrder t, x.town = k) →
      ∃ l d r h, findTown t k = node l d r h ∧ d.town = k ∧ d ∈ inOrder t) ∧
    ((∀ x ∈ inOrder t, x.town ≠ k) → findTown t k = nil) := by
  induction t with
  | nil =>
    refine ⟨?_, fun _ => rfl⟩
    rintro ⟨x, hx, -⟩
    cases hx
  | node l d r h ihl ihr =>
    obtain ⟨hbl, hbr, hlt, hgt⟩ := hb
    rw [findTown_node, inOrder_node]
    by_cases h0 : strcmp d.town k = 0
    · rw [if_pos h0]
      refine ⟨fun _ => ⟨l, d, r, h, rfl, strcmp_eq_zero h0, by simp⟩, fun habs => ?_⟩
      exact absurd (strcmp_eq_zero h0) (habs d (by simp))
    · rw [if_neg h0]
      have hne : d.town ≠ k := fun hh => h0 (strcmp_eq_zero_iff.mpr hh)
      by_cases h1 : strcmp d.town k < 0
      · rw [if_pos h1]
        constructor
        · rintro ⟨x, hx, hxk⟩
          have hxr : x ∈ inOrder r := by
            rcases List.mem_append.mp hx with hx | hx
            · exact absurd (strcmp_trans (hlt x hx) h1) (by rw [hxk]; exact strcmp_irrefl k)
            · rcases List.mem_cons.mp hx with rfl | hx
              · exact absurd hxk hne
              · exact hx
          obtain ⟨a, b, c, e, hf, hbk, hmem⟩ := (ihr hbr).1 ⟨x, hxr, hxk⟩
          exact ⟨a, b, c, e, hf, hbk, List.mem_append_right _ (List.mem_cons_of_mem _ hmem)⟩
        · intro habs
          exact (ihr hbr).2 fun x hx =>
            habs x (List.mem_append_right _ (List.mem_cons_of_mem _ hx))
      · rw [if_neg h1]
        have h2 : strcmp k d.town < 0 := by
          have := strcmp_swap d.town k
          omega
        constructor
        · rintro ⟨x, hx, hxk⟩
          have hxl : x ∈ inOrder l := by
            rcases List.mem_append.mp hx with hx | hx
            · exact hx
            · rcases List.mem_cons.mp hx with rfl | hx
              · exact absurd hxk hne
              · exact absurd (strcmp_trans h2 (hgt x hx)) (by rw [hxk]; exact strcmp_irrefl k)
          obtain ⟨a, b, c, e, hf, hbk, hmem⟩ := (ihl hbl).1 ⟨x, hxl, hxk⟩
          exact ⟨a, b, c, e, hf, hbk, List.mem_append_left _ hmem⟩
        · intro habs
          exact (ihl hbl).2 fun x hx => habs x (List.mem_append_left _ hx)

/-- C5. On an ordered tree `findTown` returns a node of the tree whose town is
the key when some node has that town, and `NULL` otherwise. -/
theorem findTown_correct (t : Town) (k : CString) (hb : bst t) :
    ((∃ x ∈ inOrder t, x.town = k) →
      ∃ l d r h, findTown t k = node l d r h ∧ d.town = k ∧ d ∈ inOrder t) ∧
    ((∀ x ∈ inOrder t, x.town ≠ k) → findTown t k = nil) :=
  findTown_spec t k hb

/-- Witness for C5: Qatanna is found in the tree of the four bootstrap towns. -/
theorem findTown_correct_witness :
    findTown fourTowns qatanna.town = node nil qatanna (node nil yabad nil 1) 2 ∧
    findTown fourTowns (str "Jenin") = nil ∧
    bst fourTowns ∧
    ((∃ x ∈ inOrder fourTowns, x.town = qatanna.town) →
      ∃ l d r h, findTown fourTowns qatanna.town = node l d r h ∧ d.town = qatanna.town ∧
        d ∈ inOrder fourTowns) ∧
    ((∀ x ∈ inOrder fourTowns, x.town ≠ qatanna.town) →
      findTown fourTowns qatanna.town = nil) :=
  ⟨by decide, by decide, by decide, findTown_correct fourTowns qatanna.town (by decide)⟩

theorem insertRebalance_avl_node (k : CString) (l r : Town) (d : Record) (h : Int)
    (ha : avl (node l d r h)) : insertRebalance k (node l d r h) = some (node l d r h) := by
  obtain ⟨-, -, hh, hb1, hb2⟩ := ha
  rw [insertRebalance_balanced k l r d h hb1 hb2, ← hh]

theorem deleteRebalance_avl_node (l r : Town) (d : Record) (h : Int)
    (ha : avl (node l d r h)) : deleteRebalance (node l d r h) = some (node l d r h) := by
  obtain ⟨-, -, hh, hb1, hb2⟩ := ha
  have e1 : ¬ height l - height r > 1 := by omega
  have e2 : ¬ height l - height r < -1 := by omega
  rw [deleteRebalance_node, if_neg e1, if_neg e2, ← hh]

/-- C6. On an ordered AVL tree, inserting a record whose town is already a key
returns the tree itself: same shape, same records (the stored district,
population, elevation and municipality are kept, not the new ones), same
cached heights, hence the same in-order sequence and node count, and no
rotation. -/
theorem insert_duplicate (t : Town) (r : Record) (hb : bst t) (ha : avl t)
    (hk : ∃ x ∈ inOrder t, x.town = r.town) : insert t r = some t := by
  induction t with
  | nil =>
    obtain ⟨x, hx, -⟩ := hk
    cases hx
  | node l d rt h ihl ihr =>
    obtain ⟨x, hx, hxk⟩ := hk
    obtain ⟨hbl, hbr, hlt, hgt⟩ := hb
    rw [insert_node]
    rw [inOrder_node] at hx
    by_cases h1 : strcmp r.town d.town < 0
    · have hxl : x ∈ inOrder l := by
        rcases List.mem_append.mp hx with hx | hx
        · exact hx
        · rcases List.mem_cons.mp hx with rfl | hx
          · exact absurd hxk (strcmp_ne_of_lt h1).symm
          · exact absurd (strcmp_trans h1 (hgt x hx)) (by rw [hxk]; exact strcmp_irrefl _)
      rw [if_pos h1, ihl hbl ha.1 ⟨x, hxl, hxk⟩, Option.some_bind,
        insertRebalance_avl_node _ _ _ _ _ ha]
    · by_cases h2 : strcmp r.town d.town > 0
      · have h2' : strcmp d.town r.town < 0 := strcmp_gt_iff.mp h2
        have hxr : x ∈ inOrder rt := by
          rcases List.mem_append.mp hx with hx | hx
          · exact absurd (strcmp_trans (hlt x hx) h2') (by rw [hxk]; exact strcmp_irrefl _)
          · rcases List.mem_cons.mp hx with rfl | hx
            · exact absurd hxk (strcmp_ne_of_lt h2')
            · exact hx
        rw [if_neg h1, if_pos h2, ihr hbr ha.2.1 ⟨x, hxr, hxk⟩, Option.some_bind,
          insertRebalance_avl_node _ _ _ _ _ ha]
      · rw [if_neg h1, if_neg h2]

/-- Witness for C6: a second Qatanna record with other fields is inserted into
the tree of the four bootstrap towns; the tree returned is the same tree. -/
theorem insert_duplicate_witness :
    bst fourTowns ∧ avl fourTowns ∧
    (∃ x ∈ inOrder fourTowns, x.town = (⟨str "Jenin", str "Qatanna", 1, 2, str "yes"⟩ : Record).town) ∧
    insert fourTowns ⟨str "Jenin", str "Qatanna", 1, 2, str "yes"⟩ = some fourTowns :=
  ⟨by decide, by decide, by decide,
    insert_duplicate fourTowns ⟨str "Jenin", str "Qatanna", 1, 2, str "yes"⟩
      (by decide) (by decide) (by decide)⟩

/-- C7. On an AVL tree (ordered or not), deleting a key that no node holds
returns the tree itself: same shape, same records, same cached heights. -/
theorem deleteTown_absent (t : Town) (k : CString) (ha : avl t)
    (hk : ∀ x ∈ inOrder t, x.town ≠ k) : deleteTown t k = some t := by
  induction t with
  | nil => rfl
  | node l d rt h ihl ihr =>
    rw [inOrder_node] at hk
    rw [deleteTown_node]
    by_cases h1 : strcmp k d.town < 0
    · rw [if_pos h1, ihl ha.1 fun x hx => hk x (List.mem_append_left _ hx), Option.some_bind,
        deleteRebalance_avl_node _ _ _ _ ha]
    · by_cases h2 : strcmp k d.town > 0
      · rw [if_neg h1, if_pos h2,
          ihr ha.2.1 fun x hx => hk x (List.mem_append_right _ (List.mem_cons_of_mem _ hx)),
          Option.some_bind, deleteRebalance_avl_node _ _ _ _ ha]
      · exact absurd (strcmp_eq_of_not_lt_gt h1 h2).symm (hk d (by simp))

/-- Witness for C7: Jenin is a district, not a town, of the four bootstrap
records. -/
theorem deleteTown_absent_witness :
    avl fourTowns ∧ bst fourTowns ∧ (∀ x ∈ inOrder fourTowns, x.town ≠ str "Jenin") ∧
    deleteTown fourTowns (str "Jenin") = some fourTowns :=
  ⟨by decide, by decide, by decide, deleteTown_absent fourTowns (str "Jenin") (by decide) (by decide)⟩

/-! ## Probing the hash table -/

theorem slotAt_zero (o : Fin TABLE_SIZE) : slotAt o 0 = o := by
  apply Fin.ext
  show (o.val + 0) % 10 = o.val
  have ho : o.val < 10 := o.isLt
  omega

theorem nextIndex_slotAt (o : Fin TABLE_SIZE) (n : Nat) :
    nextIndex (slotAt o n) = slotAt o (n + 1) := by
  apply Fin.ext
  show ((o.val + n) % 10 + 1) % 10 = (o.val + (n + 1)) % 10
  omega

theorem slotAt_eq_iff (o : Fin TABLE_SIZE) (a b : Nat) :
    slotAt o a = slotAt o b ↔ a % 10 = b % 10 := by
  rw [Fin.ext_iff]
  show (o.val + a) % 10 = (o.val + b) % 10 ↔ _
  omega

theorem slotAt_ne_start (o : Fin TABLE_SIZE) (n : Nat) (h1 : 0 < n) (h2 : n < 10) :
    slotAt o n ≠ o := by
  intro h
  rw [← slotAt_zero o, slotAt_zero o] at h
  have := (slotAt_eq_iff o n 0).mp (by rw [slotAt_zero]; exact h)
  omega

theorem slotAt_surj (o i : Fin TABLE_SIZE) : ∃ j, j < 10 ∧ slotAt o j = i := by
  refine ⟨(i.val + 10 - o.val) % 10, by omega, ?_⟩
  apply Fin.ext
  show (o.val + (i.val + 10 - o.val) % 10) % 10 = i.val
  have ho : o.val < 10 := o.isLt
  have hi : i.val < 10 := i.isLt
  omega

/-- The loop of `insertIntoHashTable` stops at the first slot of the probe
sequence that is not occupied. -/
theorem insertProbe_free (table : HashTable) (o : Fin TABLE_SIZE) (j : Nat) (hj : j < 10)
    (hocc : ∀ i, i < j → occupied table (slotAt o i) = true)
    (hfree : occupied table (slotAt o j) = false) :
    ∀ (fuel n : Nat), n ≤ j → j - n < fuel →
      insertProbe table o fuel (slotAt o n) = Probe.free (slotAt o j) := by
  intro fuel
  induction fuel with
  | zero => intro n _ h; omega
  | succ f ih =>
    intro n hn hf
    rcases Nat.lt_or_ge n j with hlt | hge
    · have hne : nextIndex (slotAt o n) ≠ o := by
        rw [nextIndex_slotAt]; exact slotAt_ne_start o (n + 1) (by omega) (by omega)
      rw [insertProbe, if_pos (hocc n hlt), if_neg hne, nextIndex_slotAt]
      exact ih (n + 1) (by omega) (by omega)
    · have hnj : n = j := by omega
      subst hnj
      rw [insertProbe, hfree]
      rfl

/-- On a table whose slots are all occupied the loop of `insertIntoHashTable`
ends with "Hash table is full!" when it has examined the tenth slot, and not
before. -/
theorem insertProbe_full (table : HashTable) (o : Fin TABLE_SIZE)
    (hocc : ∀ i, occupied table i = true) :
    ∀ (fuel n : Nat), n < 10 →
      insertProbe table o fuel (slotAt o n) =
        if 10 - n ≤ fuel then Probe.full else Probe.outOfFuel := by
  intro fuel
  induction fuel with
  | zero =>
    intro n hn
    rw [if_neg (by omega)]
    rfl
  | succ f ih =>
    intro n hn
    rw [insertProbe, if_pos (hocc _), nextIndex_slotAt]
    by_cases h9 : n = 9
    · subst h9
      have e : slotAt o (9 + 1) = o := by
        rw [← slotAt_zero o, slotAt_zero o]
        have := (slotAt_eq_iff o 10 0).mpr (by decide)
        rw [slotAt_zero] at this
        exact this
      rw [if_pos e, if_pos (by omega)]
    · rw [if_neg (slotAt_ne_start o (n + 1) (by omega) (by omega)), ih (n + 1) (by omega)]
      by_cases hf : 10 - n ≤ f + 1
      · rw [if_pos hf, if_pos (by omega)]
      · rw [if_neg hf, if_neg (by omega)]

/-- A table with a slot that is not occupied has a first such slot in every
probe sequence. -/
theorem exists_first_free (table : HashTable) (o : Fin TABLE_SIZE)
    (hfree : ∃ i, occupied table i = false) :
    ∃ j, j < 10 ∧ occupied table (slotAt o j) = false ∧
      ∀ i, i < j → occupied table (slotAt o i) = true := by
  obtain ⟨i, hi⟩ := hfree
  obtain ⟨j0, hj0, e⟩ := slotAt_surj o i
  have hex : ∃ j, j < 10 ∧ occupied table (slotAt o j) = false := ⟨j0, hj0, by rw [e]; exact hi⟩
  refine ⟨Nat.find hex, (Nat.find_spec hex).1, (Nat.find_spec hex).2, fun i hi => ?_⟩
  have hmin := Nat.find_min hex hi
  have hlt : i < 10 := lt_trans hi (Nat.find_spec hex).1
  cases hocc : occupied table (slotAt o i) with
  | true => rfl
  | false => exact absurd ⟨hlt, hocc⟩ hmin

/-- The loop of `insertIntoHashTable` never runs out of its `TABLE_SIZE`
units of fuel. -/
theorem insertProbe_fuel (table : HashTable) (o : Fin TABLE_SIZE) :
    insertProbe table o TABLE_SIZE o ≠ Probe.outOfFuel := by
  by_cases hfree : ∃ i, occupied table i = false
  · obtain ⟨j, hj, hf, hocc⟩ := exists_first_free table o hfree
    have := insertProbe_free table o j hj hocc hf TABLE_SIZE 0 (by omega) (by
      show j - 0 < 10
      omega)
    rw [slotAt_zero] at this
    rw [this]
    exact fun h => Probe.noConfusion h
  · have hocc : ∀ i, occupied table i = true := by
      intro i
      cases h : occupied table i with
      | true => rfl
      | false => exact absurd ⟨i, h⟩ hfree
    have := insertProbe_full table o hocc TABLE_SIZE 0 (by omega)
    rw [slotAt_zero] at this
    rw [this, if_pos (by show 10 - 0 ≤ 10; omega)]
    exact fun h => Probe.noConfusion h

theorem HashTable.set_entries_same (table : HashTable) (index : Fin TABLE_SIZE)
    (e : HashTableEntry) : (table.set index e).entries index = some e := by
  simp [HashTable.set]

theorem HashTable.set_entries_ne (table : HashTable) (index i : Fin TABLE_SIZE)
    (e : HashTableEntry) (h : i ≠ index) : (table.set index e).entries i = table.entries i := by
  simp [HashTable.set, h]

theorem insertIntoHashTable_of_free (table : HashTable) (l r : Town) (d : Record) (h : Int)
    (j : Nat) (hj : j < 10)
    (hocc : ∀ i, i < j → occupied table (slotAt (hash d.town) i) = true)
    (hfree : occupied table (slotAt (hash d.town) j) = false) :
    insertIntoHashTable table (node l d r h) =
      some (table.set (slotAt (hash d.town) j) ⟨d.town, node l d r h, true⟩, []) := by
  have hp := insertProbe_free table (hash d.town) j hj hocc hfree TABLE_SIZE 0 (by omega) (by
    show j - 0 < 10
    omega)
  rw [slotAt_zero] at hp
  simp only [insertIntoHashTable, hp]

/-- C9. On a table whose ten slots are all occupied, `insertIntoHashTable`
stores nothing: the table it leaves is the table it was given, and it prints
"Hash table is full!"; the loop gets there on its tenth iteration, not before. -/
theorem insertIntoHashTable_full (table : HashTable) (l r : Town) (d : Record) (h : Int)
    (hocc : ∀ i, occupied table i = true) :
    insertIntoHashTable table (node l d r h) = some (table, [Message.hashTableFull]) ∧
    insertProbe table (hash d.town) TABLE_SIZE (hash d.town) = Probe.full ∧
    ∀ fuel, fuel < TABLE_SIZE →
      insertProbe table (hash d.town) fuel (hash d.town) = Probe.outOfFuel := by
  have hp : ∀ fuel, insertProbe table (hash d.town) fuel (hash d.town) =
      if 10 ≤ fuel then Probe.full else Probe.outOfFuel := by
    intro fuel
    have := insertProbe_full table (hash d.town) hocc fuel 0 (by omega)
    rw [slotAt_zero] at this
    exact this
  have h10 : insertProbe table (hash d.town) TABLE_SIZE (hash d.town) = Probe.full := by
    rw [hp, if_pos (le_refl _)]
  refine ⟨by simp only [insertIntoHashTable, h10], h10, fun fuel hf => ?_⟩
  have hf10 : fuel < 10 := hf
  rw [hp, if_neg (by omega)]

/-- Witness for C9: Hezma's node offered to a table holding ten entries. -/
theorem insertIntoHashTable_full_witness :
    (∀ i, occupied fullTable i = true) ∧
    insertIntoHashTable fullTable (newTown hezma) = some (fullTable, [Message.hashTableFull]) ∧
    insertProbe fullTable (hash hezma.town) TABLE_SIZE (hash hezma.town) = Probe.full ∧
    ∀ fuel, fuel < TABLE_SIZE →
      insertProbe fullTable (hash hezma.town) fuel (hash hezma.town) = Probe.outOfFuel :=
  ⟨by decide, insertIntoHashTable_full fullTable nil nil hezma 1 (by decide)⟩

/-- C10. On a table with a slot that is not occupied, `insertIntoHashTable`
stores an occupied entry with the node's town in the first slot of the probe
sequence `(hash(town) + j) % 10`, `j = 0, 1, ...`, that is not occupied, and
leaves every other slot as it was.  Nothing is asked about the town being in
the table already: a second insertion of a key makes a second entry. -/
theorem insertIntoHashTable_position (table : HashTable) (l r : Town) (d : Record) (h : Int)
    (hfree : ∃ i, occupied table i = false) :
    ∃ j table1, j < TABLE_SIZE ∧ occupied table (slotAt (hash d.town) j) = false ∧
      (∀ i, i < j → occupied table (slotAt (hash d.town) i) = true) ∧
      insertIntoHashTable table (node l d r h) = some (table1, []) ∧
      table1.entries (slotAt (hash d.town) j) = some ⟨d.town, node l d r h, true⟩ ∧
      ∀ i, i ≠ slotAt (hash d.town) j → table1.entries i = table.entries i := by
  obtain ⟨j, hj, hf, hocc⟩ := exists_first_free table (hash d.town) hfree
  exact ⟨j, _, hj, hf, hocc, insertIntoHashTable_of_free table l r d h j hj hocc hf,
    HashTable.set_entries_same _ _ _, fun i hi => HashTable.set_entries_ne _ _ _ _ hi⟩

/-- Witness for C10: Hezma's node inserted a second time; slot 1 keeps the
first entry and slot 2 receives a second entry for the same town. -/
theorem insertIntoHashTable_position_witness :
    hash hezma.town = 1 ∧
    insertIntoHashTable createHashTable (newTown hezma) = some (hezmaTable, []) ∧
    (insertIntoHashTable hezmaTable (newTown hezma)).map (fun p => (p.1.entries 1, p.1.entries 2))
      = some (some ⟨hezma.town, newTown hezma, true⟩, some ⟨hezma.town, newTown hezma, true⟩) ∧
    (∃ i, occupied hezmaTable i = false) ∧
    ∃ j table1, j < TABLE_SIZE ∧ occupied hezmaTable (slotAt (hash hezma.town) j) = false ∧
      (∀ i, i < j → occupied hezmaTable (slotAt (hash hezma.town) i) = true) ∧
      insertIntoHashTable hezmaTable (node nil hezma nil 1) = some (table1, []) ∧
      table1.entries (slotAt (hash hezma.town) j) = some ⟨hezma.town, node nil hezma nil 1, true⟩ ∧
      ∀ i, i ≠ slotAt (hash hezma.town) j → table1.entries i = hezmaTable.entries i :=
  ⟨by decide, rfl, by decide, by decide,
    insertIntoHashTable_position hezmaTable nil nil hezma 1 (by decide)⟩

/-- The loop of `searchTownInHashTable` reports the first matching entry of
the probe sequence when no `NULL` slot comes before it. -/
theorem searchProbe_found (table : HashTable) (k : CString) (o : Fin TABLE_SIZE) (m : Nat)
    (e : HashTableEntry) (hm : table.entries (slotAt o m) = some e)
    (hmatch : e.isOccupied = true ∧ strcmp e.town k = 0)
    (hbefore : ∀ i, i < m → ∃ e1, table.entries (slotAt o i) = some e1 ∧
      ¬ (e1.isOccupied = true ∧ strcmp e1.town k = 0)) :
    ∀ (fuel n : Nat) (c : Int), n ≤ m → m - n < fuel →
      searchProbe table k fuel (slotAt o n) c =
        some (Search.found (slotAt o m) e (c + ((m - n : Nat) : Int))) := by
  intro fuel
  induction fuel with
  | zero => intro n c _ h; omega
  | succ f ih =>
    intro n c hn hf
    rcases Nat.lt_or_ge n m with hlt | hge
    · obtain ⟨e1, he1, hno⟩ := hbefore n hlt
      rw [searchProbe, he1]
      simp only [if_neg hno, nextIndex_slotAt]
      rw [ih (n + 1) (c + 1) (by omega) (by omega)]
      congr 2
      omega
    · have hnm : n = m := by omega
      subst hnm
      rw [searchProbe, hm]
      simp only [if_pos hmatch]
      congr 2
      omega

theorem occupied_eq_true_iff (table : HashTable) (i : Fin TABLE_SIZE) :
    occupied table i = true ↔ ∃ e, table.entries i = some e ∧ e.isOccupied = true := by
  unfold occupied
  cases table.entries i with
  | none => simp
  | some e => simp

/-- C8, amended. On an ordered AVL tree and a table with a slot that is not
occupied, in which every occupied entry for the record's town already refers
to the field values `findTown` returns after the tree insert: the paired
insert returns, `findTown` on the new root is not `NULL`, and a search of the
table for the town, on any fuel of `TABLE_SIZE` or more, reports it found at
an entry with that town whose `townData` has the field values of the node
`findTown` returns. -/
theorem paired_insert_consistent (fuel : Nat) (t : Town) (h : HashTable) (r : Record)
    (hb : bst t) (ha : avl t) (hfree : ∃ i, occupied h i = false)
    (hfuel : TABLE_SIZE ≤ fuel)
    (hprior : ∀ i, ∀ e ∈ h.entries i, e.isOccupied = true → e.town = r.town →
      some (payload e.townData) = (insert t r).map fun t1 => payload (findTown t1 r.town)) :
    pairedInsertConsistent fuel t h r := by
  classical
  obtain ⟨t1, e1, ha1, -⟩ := insert_avl t r ha
  have hb1 := insert_bst t r t1 hb e1
  have hkey : ∃ x ∈ inOrder t1, x.town = r.town := by
    rcases insert_inOrder t r t1 hb e1 with ⟨hsame, x, hx, hxk⟩ | ⟨pre, post, -, hnew, -⟩
    · exact ⟨x, by rw [hsame]; exact hx, hxk⟩
    · exact ⟨r, by rw [hnew]; simp, rfl⟩
  obtain ⟨a, b, c, d, hfind, hbk, -⟩ := (findTown_spec t1 r.town hb1).1 hkey
  obtain ⟨j, hj, hjfree, hjocc⟩ := exists_first_free h (hash b.town) hfree
  have hins := insertIntoHashTable_of_free h a c b d j hj hjocc hjfree
  rw [hbk] at hins hjfree hjocc
  set o := hash r.town with ho
  set h1 := h.set (slotAt o j) ⟨r.town, node a b c d, true⟩ with hh1
  have hPj : ∃ m, m ≤ j ∧ ∃ e, h1.entries (slotAt o m) = some e ∧
      (e.isOccupied = true ∧ strcmp e.town r.town = 0) :=
    ⟨j, le_refl _, _, HashTable.set_entries_same _ _ _, rfl, strcmp_self _⟩
  obtain ⟨hmj, e, hme, hmatch⟩ := Nat.find_spec hPj
  have hold : ∀ i, i < j → h1.entries (slotAt o i) = h.entries (slotAt o i) := by
    intro i hi
    apply HashTable.set_entries_ne
    intro heq
    have := (slotAt_eq_iff o i j).mp heq
    omega
  have hbefore : ∀ i, i < Nat.find hPj → ∃ e1, h1.entries (slotAt o i) = some e1 ∧
      ¬ (e1.isOccupied = true ∧ strcmp e1.town r.town = 0) := by
    intro i hi
    have hij : i < j := lt_of_lt_of_le hi hmj
    obtain ⟨e1, he1, -⟩ := (occupied_eq_true_iff h _).mp (hjocc i hij)
    refine ⟨e1, by rw [hold i hij, he1], fun hno => ?_⟩
    exact Nat.find_min hPj hi ⟨le_of_lt hij, e1, by rw [hold i hij, he1], hno⟩
  have hsearch := searchProbe_found h1 r.town o (Nat.find hPj) e hme hmatch hbefore fuel 0 0
    (Nat.zero_le _) (by
      have : TABLE_SIZE = 10 := rfl
      omega)
  rw [slotAt_zero] at hsearch
  have htown : e.town = r.town := strcmp_eq_zero hmatch.2
  refine ⟨t1, h1, [], slotAt o (Nat.find hPj), e, _, e1, by rw [hfind]; exact Town.noConfusion,
    by rw [hfind]; exact hins, hsearch, ?_, hme, htown, ?_⟩
  · simp only [searchTownInHashTable, hsearch, htown]
  · rcases Nat.lt_or_ge (Nat.find hPj) j with hlt | hge
    · rw [hold _ hlt] at hme
      have := hprior _ e hme hmatch.1 htown
      rw [e1] at this
      exact Option.some.inj this
    · have hmj2 : Nat.find hPj = j := le_antisymm hmj hge
      rw [hmj2, HashTable.set_entries_same] at hme
      cases hme
      rw [hfind]

/-- Witness for C8 (amended): Yabad is inserted into the tree and the table of
Hezma, Asira and Qatanna; the search passes Hezma and Qatanna (2 collisions)
and finds Yabad's entry. -/
theorem paired_insert_consistent_witness :
    bst threeTowns ∧ avl threeTowns ∧ (∃ i, occupied threeTable i = false) ∧
    (insertIntoHashTable threeTable (findTown fourTowns yabad.town)).bind
        (fun p => searchTownInHashTable 10 p.1 yabad.town) =
      some [Message.townFound yabad.town, Message.collisions 2] ∧
    pairedInsertConsistent 10 threeTowns threeTable yabad :=
  ⟨by decide, by decide, by decide, by decide,
    paired_insert_consistent 10 threeTowns threeTable yabad (by decide) (by decide)
      (by decide) (by decide) (by decide)⟩

/-- Counterexample to C8 as stated: the tree is empty and the table has nine
free slots, but slot 1 holds an entry for Hezma that refers to a node with
population 1.  After the paired insert of Hezma with population 5000 the
search stops at slot 1, whose entry refers to population 1, while `findTown`
returns the node with population 5000. -/
theorem paired_insert_stale_entry :
    bst nil ∧ avl nil ∧ (∃ i, occupied staleTable i = false) ∧
    ¬ pairedInsertConsistent 10 nil staleTable hezma := by
  refine ⟨by decide, by decide, by decide, ?_⟩
  rintro ⟨t1, h1, out, i, e, c, e1, -, e2, e3, -, -, -, e7⟩
  change some (newTown hezma) = some t1 at e1
  cases e1
  have e2a : insertIntoHashTable staleTable (findTown (newTown hezma) hezma.town) =
      some (staleTable.set 2 ⟨hezma.town, newTown hezma, true⟩, []) := by rfl
  rw [e2a] at e2
  cases e2
  have e3a : searchProbe (staleTable.set 2 ⟨hezma.town, newTown hezma, true⟩) hezma.town 10
      (hash hezma.town) 0 =
      some (Search.found 1
        ⟨hezma.town, node nil ⟨str "AlQuds", str "Hezma", 1, 550, str "yes"⟩ nil 1, true⟩ 0) := by
    decide
  rw [e3a] at e3
  cases e3
  exact absurd e7 (by decide)

/-! ## Searching and deleting in the hash table -/

theorem searchProbe_found_inv (table : HashTable) (k : CString) (o : Fin TABLE_SIZE) :
    ∀ (fuel n : Nat) (c0 : Int) (i : Fin TABLE_SIZE) (e : HashTableEntry) (c : Int),
      searchProbe table k fuel (slotAt o n) c0 = some (Search.found i e c) →
      ∃ m, n ≤ m ∧ i = slotAt o m ∧ c = c0 + ((m - n : Nat) : Int) ∧
        table.entries (slotAt o m) = some e ∧
        (e.isOccupied = true ∧ strcmp e.town k = 0) ∧
        ∀ j, n ≤ j → j < m → ∃ e1, table.entries (slotAt o j) = some e1 ∧
          ¬ (e1.isOccupied = true ∧ strcmp e1.town k = 0) := by
  intro fuel
  induction fuel with
  | zero => intro n c0 i e c h; cases h
  | succ f ih =>
    intro n c0 i e c h
    rw [searchProbe] at h
    cases he : table.entries (slotAt o n) with
    | none => rw [he] at h; cases h
    | some e0 =>
      rw [he] at h
      by_cases hm : e0.isOccupied = true ∧ strcmp e0.town k = 0
      · simp only [if_pos hm] at h
        cases h
        exact ⟨n, le_refl _, rfl, by simp, he, hm, fun j h1 h2 => by omega⟩
      · simp only [if_neg hm, nextIndex_slotAt] at h
        obtain ⟨m, hnm, hi, hc, hem, hmatch, hbefore⟩ := ih (n + 1) (c0 + 1) i e c h
        refine ⟨m, by omega, hi, by rw [hc]; omega, hem, hmatch, fun j h1 h2 => ?_⟩
        rcases Nat.eq_or_lt_of_le h1 with rfl | hlt
        · exact ⟨e0, he, hm⟩
        · exact hbefore j hlt h2

theorem searchProbe_none_of_no_match (table : HashTable) (k : CString)
    (hall : ∀ i, ∃ e, table.entries i = some e ∧
      ¬ (e.isOccupied = true ∧ strcmp e.town k = 0)) :
    ∀ (fuel : Nat) (index : Fin TABLE_SIZE) (c : Int),
      searchProbe table k fuel index c = none := by
  intro fuel
  induction fuel with
  | zero => intro index c; rfl
  | succ f ih =>
    intro index c
    obtain ⟨e, he, hno⟩ := hall index
    rw [searchProbe, he]
    simp only [if_neg hno]
    exact ih _ _

/-- C11. When the search reports a town found, the collision count printed is
the number of slots probed before the match, `(matchSlot - hash(k)) mod 10`,
between 0 and 9; each of those slots holds an entry that is not an occupied
entry for `k`, and in a table whose entries all carry the occupied flag (every
table made by `insertIntoHashTable` and `deleteFromHashTable`:
`flagged_of_runTableOps`) each of them is occupied and holds a town other
than `k`. -/
theorem search_collision_count (fuel : Nat) (table : HashTable) (k : CString)
    (i : Fin TABLE_SIZE) (e : HashTableEntry) (c : Int)
    (hfound : searchProbe table k fuel (hash k) 0 = some (Search.found i e c)) :
    searchTownInHashTable fuel table k = some [Message.townFound k, Message.collisions c] ∧
    table.entries i = some e ∧ e.isOccupied = true ∧ e.town = k ∧
    0 ≤ c ∧ c ≤ 9 ∧
    c = (((i.val + TABLE_SIZE - (hash k).val) % TABLE_SIZE : Nat) : Int) ∧
    (∀ j : Nat, (j : Int) < c → ∃ e1, table.entries (slotAt (hash k) j) = some e1 ∧
      ¬ (e1.isOccupied = true ∧ e1.town = k)) ∧
    (flagged table → ∀ j : Nat, (j : Int) < c →
      occupied table (slotAt (hash k) j) = true ∧
        ∃ e1, table.entries (slotAt (hash k) j) = some e1 ∧ e1.town ≠ k) := by
  have h0 := hfound
  rw [← slotAt_zero (hash k)] at h0
  obtain ⟨m, -, hi, hc, hem, hmatch, hbefore⟩ :=
    searchProbe_found_inv table k (hash k) fuel 0 0 i e c h0
  have hm9 : m ≤ 9 := by
    by_contra hgt
    obtain ⟨e1, he1, hno⟩ := hbefore (m - 10) (Nat.zero_le _) (by omega)
    have hslot : slotAt (hash k) (m - 10) = slotAt (hash k) m :=
      (slotAt_eq_iff _ _ _).mpr (by omega)
    rw [hslot, hem] at he1
    cases he1
    exact hno hmatch
  have hcm : c = (m : Int) := by rw [hc]; simp
  have htown : e.town = k := strcmp_eq_zero hmatch.2
  have hbefore2 : ∀ j : Nat, (j : Int) < c → ∃ e1,
      table.entries (slotAt (hash k) j) = some e1 ∧ ¬ (e1.isOccupied = true ∧ e1.town = k) := by
    intro j hj
    obtain ⟨e1, he1, hno⟩ := hbefore j (Nat.zero_le _) (by omega)
    exact ⟨e1, he1, fun hh => hno ⟨hh.1, strcmp_eq_zero_iff.mpr hh.2⟩⟩
  refine ⟨by simp only [searchTownInHashTable, hfound, htown], by rw [hi]; exact hem,
    hmatch.1, htown, by omega, by omega, ?_, hbefore2, fun hfl j hj => ?_⟩
  · rw [hcm, hi]
    have ho : (hash k).val < 10 := (hash k).isLt
    show (m : Int) = (((((hash k).val + m) % 10 + 10 - (hash k).val) % 10 : Nat) : Int)
    omega
  · obtain ⟨e1, he1, hno⟩ := hbefore2 j hj
    have hocc : e1.isOccupied = true := hfl _ e1 he1
    refine ⟨by simp only [occupied, he1, hocc], e1, he1, fun hh => hno ⟨hocc, hh⟩⟩

/-- Witness for C11: in the table of the four bootstrap towns the search for
Yabad passes Hezma (slot 1) and Qatanna (slot 2) and matches in slot 3. -/
theorem search_collision_count_witness :
    searchProbe fourTable yabad.town 10 (hash yabad.town) 0 =
      some (Search.found 3 ⟨yabad.town, findTown fourTowns yabad.town, true⟩ 2) ∧
    hash yabad.town = 1 ∧ flagged fourTable ∧
    searchTownInHashTable 10 fourTable yabad.town =
      some [Message.townFound yabad.town, Message.collisions 2] :=
  ⟨by decide, by decide, by decide,
    (search_collision_count 10 fourTable yabad.town 3
      ⟨yabad.town, findTown fourTowns yabad.town, true⟩ 2 (by decide)).1⟩

/-- C12, the code at the failing input: after ten insertions every slot is
occupied by Hezma, and the search for Yabad, which no slot holds, does not end
on any amount of fuel: the loop of `searchTownInHashTable` has no wrap-around
test and never meets a `NULL` slot.  `deleteFromHashTable`, which has the
test, ends on the same table and key with "Town not found.". -/
theorem search_full_table_diverges :
    (runTableOps (List.replicate 10 (TableOp.insert (newTown hezma))) createHashTable).map slots
      = some (slots fullTable) ∧
    (∀ i, occupied fullTable i = true) ∧
    (∀ i, ∀ e ∈ fullTable.entries i, e.town ≠ yabad.town) ∧
    deleteFromHashTable fullTable yabad.town = some (fullTable, [Message.townNotFound]) ∧
    ∀ fuel, searchTownInHashTable fuel fullTable yabad.town = none := by
  refine ⟨by decide, by decide, by decide, rfl, fun fuel => ?_⟩
  have h := searchProbe_none_of_no_match fullTable yabad.town
    (fun i => ⟨⟨hezma.town, newTown hezma, true⟩, rfl, by decide⟩) fuel (hash yabad.town) 0
  simp only [searchTownInHashTable, h]

/-- The loop of `deleteFromHashTable` stops at the first matching entry of the
probe sequence when no `NULL` slot comes before it. -/
theorem deleteProbe_hit (table : HashTable) (k : CString) (o : Fin TABLE_SIZE) (m : Nat)
    (hm : m < 10) (e : HashTableEntry) (hem : table.entries (slotAt o m) = some e)
    (hmatch : e.isOccupied = true ∧ strcmp e.town k = 0)
    (hbefore : ∀ i, i < m → ∃ e1, table.entries (slotAt o i) = some e1 ∧
      ¬ (e1.isOccupied = true ∧ strcmp e1.town k = 0)) :
    ∀ (fuel n : Nat), n ≤ m → m - n < fuel →
      deleteProbe table k o fuel (slotAt o n) = Removal.hit (slotAt o m) := by
  intro fuel
  induction fuel with
  | zero => intro n _ h; omega
  | succ f ih =>
    intro n hn hf
    rcases Nat.lt_or_ge n m with hlt | hge
    · obtain ⟨e1, he1, hno⟩ := hbefore n hlt
      have hne : slotAt o (n + 1) ≠ o := slotAt_ne_start o (n + 1) (by omega) (by omega)
      rw [deleteProbe, he1]
      simp only [if_neg hno, nextIndex_slotAt, if_neg hne]
      exact ih (n + 1) (by omega) (by omega)
    · have hnm : n = m := by omega
      subst hnm
      rw [deleteProbe, hem]
      simp only [if_pos hmatch]

/-- The loop of `deleteFromHashTable` gives up at the first `NULL` slot of the
probe sequence when no matching entry comes before it. -/
theorem deleteProbe_miss_null (table : HashTable) (k : CString) (o : Fin TABLE_SIZE) (m : Nat)
    (hm : m < 10) (hem : table.entries (slotAt o m) = none)
    (hbefore : ∀ i, i < m → ∃ e1, table.entries (slotAt o i) = some e1 ∧
      ¬ (e1.isOccupied = true ∧ strcmp e1.town k = 0)) :
    ∀ (fuel n : Nat), n ≤ m → m - n < fuel →
      deleteProbe table k o fuel (slotAt o n) = Removal.miss := by
  intro fuel
  induction fuel with
  | zero => intro n _ h; omega
  | succ f ih =>
    intro n hn hf
    rcases Nat.lt_or_ge n m with hlt | hge
    · obtain ⟨e1, he1, hno⟩ := hbefore n hlt
      have hne : slotAt o (n + 1) ≠ o := slotAt_ne_start o (n + 1) (by omega) (by omega)
      rw [deleteProbe, he1]
      simp only [if_neg hno, nextIndex_slotAt, if_neg hne]
      exact ih (n + 1) (by omega) (by omega)
    · have hnm : n = m := by omega
      subst hnm
      rw [deleteProbe, hem]

/-- The loop of `deleteFromHashTable` gives up after one cycle when all ten
slots hold entries and none matches. -/
theorem deleteProbe_miss_cycle (table : HashTable) (k : CString) (o : Fin TABLE_SIZE)
    (hall : ∀ i, i < 10 → ∃ e1, table.entries (slotAt o i) = some e1 ∧
      ¬ (e1.isOccupied = true ∧ strcmp e1.town k = 0)) :
    ∀ (fuel n : Nat), n < 10 → 10 - n ≤ fuel →
      deleteProbe table k o fuel (slotAt o n) = Removal.miss := by
  intro fuel
  induction fuel with
  | zero => intro n h1 h2; omega
  | succ f ih =>
    intro n hn hf
    obtain ⟨e1, he1, hno⟩ := hall n hn
    rw [deleteProbe, he1]
    simp only [if_neg hno, nextIndex_slotAt]
    by_cases h9 : n = 9
    · subst h9
      have e : slotAt o (9 + 1) = o := by
        have := (slotAt_eq_iff o 10 0).mpr (by decide)
        rw [slotAt_zero] at this
        exact this
      rw [if_pos e]
    · rw [if_neg (slotAt_ne_start o (n + 1) (by omega) (by omega))]
      exact ih (n + 1) (by omega) (by omega)

/-- What the loop of `deleteFromHashTable` returns on its `TABLE_SIZE` units
of fuel: the first match of the probe sequence, if one comes before any
`NULL` slot, and a miss otherwise. -/
theorem deleteProbe_spec (table : HashTable) (k : CString) :
    (∀ m, firstMatch table k m →
      deleteProbe table k (hash k) TABLE_SIZE (hash k) = Removal.hit (slotAt (hash k) m)) ∧
    ((∀ m, ¬ firstMatch table k m) →
      deleteProbe table k (hash k) TABLE_SIZE (hash k) = Removal.miss) := by
  classical
  have hstart : ∀ r, deleteProbe table k (hash k) TABLE_SIZE (slotAt (hash k) 0) = r →
      deleteProbe table k (hash k) TABLE_SIZE (hash k) = r := by
    intro r h
    rw [slotAt_zero] at h
    exact h
  constructor
  · rintro m ⟨hm, hbefore, e, hem, hocc, htown⟩
    apply hstart
    refine deleteProbe_hit table k (hash k) m hm e hem ⟨hocc, strcmp_eq_zero_iff.mpr htown⟩
      (fun i hi => ?_) TABLE_SIZE 0 (Nat.zero_le _) (by
        have : m < 10 := hm
        show m - 0 < 10
        omega)
    obtain ⟨e1, he1, hno⟩ := hbefore i hi
    exact ⟨e1, he1, fun hh => hno ⟨hh.1, strcmp_eq_zero hh.2⟩⟩
  · intro hnone
    apply hstart
    -- no slot reached before a `NULL` slot is a match
    have hnomatch : ∀ m, m < 10 →
        (∀ i, i < m → table.entries (slotAt (hash k) i) ≠ none) →
        ∀ i, i < m → ∃ e1, table.entries (slotAt (hash k) i) = some e1 ∧
          ¬ (e1.isOccupied = true ∧ strcmp e1.town k = 0) := by
      intro m hm hsome
      by_contra hbad
      push_neg at hbad
      have hex : ∃ i, i < m ∧ ∃ e1, table.entries (slotAt (hash k) i) = some e1 ∧
          (e1.isOccupied = true ∧ strcmp e1.town k = 0) := by
        obtain ⟨i, hi, hh⟩ := hbad
        cases he : table.entries (slotAt (hash k) i) with
        | none => exact absurd he (hsome i hi)
        | some e1 => exact ⟨i, hi, e1, he, hh e1 he⟩
      obtain ⟨hlt, e1, he1, hocc, hcmp⟩ := Nat.find_spec hex
      refine hnone (Nat.find hex) ⟨lt_trans hlt hm, fun i hi => ?_, e1, he1, hocc,
        strcmp_eq_zero hcmp⟩
      have hi2 : i < m := lt_trans hi hlt
      cases he : table.entries (slotAt (hash k) i) with
      | none => exact absurd he (hsome i hi2)
      | some e2 =>
        refine ⟨e2, rfl, fun hh => ?_⟩
        exact Nat.find_min hex hi ⟨hi2, e2, he, hh.1, strcmp_eq_zero_iff.mpr hh.2⟩
    by_cases hnull : ∃ m, m < 10 ∧ table.entries (slotAt (hash k) m) = none
    · obtain ⟨hlt, hem⟩ := Nat.find_spec hnull
      have hsome : ∀ i, i < Nat.find hnull → table.entries (slotAt (hash k) i) ≠ none :=
        fun i hi he => Nat.find_min hnull hi ⟨lt_trans hi hlt, he⟩
      exact deleteProbe_miss_null table k (hash k) (Nat.find hnull) hlt hem
        (hnomatch _ hlt hsome) TABLE_SIZE 0 (Nat.zero_le _) (by
          show Nat.find hnull - 0 < 10
          omega)
    · have hsome : ∀ i, i < 10 → table.entries (slotAt (hash k) i) ≠ none :=
        fun i hi he => hnull ⟨i, hi, he⟩
      have h9 := hnomatch 9 (by omega) (fun i hi => hsome i (by omega))
      have hall : ∀ i, i < 10 → ∃ e1, table.entries (slotAt (hash k) i) = some e1 ∧
          ¬ (e1.isOccupied = true ∧ strcmp e1.town k = 0) := by
        intro i hi
        rcases Nat.lt_or_ge i 9 with hlt | hge
        · exact h9 i hlt
        · have hi9 : i = 9 := by omega
          subst hi9
          cases he : table.entries (slotAt (hash k) 9) with
          | none => exact absurd he (hsome 9 (by omega))
          | some e2 =>
            refine ⟨e2, rfl, fun hh => ?_⟩
            exact hnone 9 ⟨by decide, fun i hi => by
              obtain ⟨e1, he1, hno⟩ := h9 i hi
              exact ⟨e1, he1, fun h2 => hno ⟨h2.1, strcmp_eq_zero_iff.mpr h2.2⟩⟩,
              e2, he, hh.1, strcmp_eq_zero hh.2⟩
      exact deleteProbe_miss_cycle table k (hash k) hall TABLE_SIZE 0 (by omega) (by
        show 10 - 0 ≤ 10
        omega)

/-- The loop of `deleteFromHashTable` never runs out of its `TABLE_SIZE`
units of fuel. -/
theorem deleteProbe_fuel (table : HashTable) (k : CString) :
    deleteProbe table k (hash k) TABLE_SIZE (hash k) ≠ Removal.outOfFuel := by
  by_cases h : ∃ m, firstMatch table k m
  · obtain ⟨m, hm⟩ := h
    rw [(deleteProbe_spec table k).1 m hm]
    exact fun hh => Removal.noConfusion hh
  · rw [(deleteProbe_spec table k).2 (fun m hm => h ⟨m, hm⟩)]
    exact fun hh => Removal.noConfusion hh

/-- C13, amended. For every table, reachable or not, and every key:
`deleteFromHashTable` clears the first slot of the probe sequence from
`hash(k)` that holds an occupied entry for `k`, provided no `NULL` slot comes
before it, and reports success; it reports "Town not found." and leaves the
table as it was exactly when the probe sequence meets no such slot before its
first `NULL` slot (within one cycle when no slot is `NULL`). -/
theorem deleteFromHashTable_probe (table : HashTable) (k : CString) :
    (∀ m, firstMatch table k m →
      deleteFromHashTable table k =
        some (table.clear (slotAt (hash k) m), [Message.townDeleted])) ∧
    ((∀ m, ¬ firstMatch table k m) →
      deleteFromHashTable table k = some (table, [Message.townNotFound])) ∧
    (∀ table1, deleteFromHashTable table k = some (table1, [Message.townNotFound]) →
      ∀ m, ¬ firstMatch table k m) := by
  have h1 : ∀ m, firstMatch table k m →
      deleteFromHashTable table k =
        some (table.clear (slotAt (hash k) m), [Message.townDeleted]) := by
    intro m hm
    simp only [deleteFromHashTable, (deleteProbe_spec table k).1 m hm]
  refine ⟨h1, fun hnone => ?_, fun table1 hnf m hm => ?_⟩
  · simp only [deleteFromHashTable, (deleteProbe_spec table k).2 hnone]
  · rw [h1 m hm] at hnf
    cases hnf

/-- Witness for C13 (amended): in the table of the four bootstrap towns
Qatanna is the second slot of its probe sequence, after Hezma, and is the
slot cleared. -/
theorem deleteFromHashTable_probe_witness :
    firstMatch fourTable qatanna.town 1 ∧
    deleteFromHashTable fourTable qatanna.town =
      some (fourTable.clear (slotAt (hash qatanna.town) 1), [Message.townDeleted]) :=
  ⟨by decide, (deleteFromHashTable_probe fourTable qatanna.town).1 1 (by decide)⟩

/-- Counterexample to C13 as stated: the table reached by inserting Hezma and
Qatanna (both start at slot 1) and deleting Hezma has slot 1 `NULL` and
Qatanna in slot 2; `deleteFromHashTable` for Qatanna stops at slot 1, reports
"Town not found." and clears nothing, though an occupied slot holds Qatanna. -/
theorem deleteFromHashTable_misses_stored_key :
    runTableOps [TableOp.insert (newTown hezma), TableOp.insert (newTown qatanna),
      TableOp.delete hezma.town] createHashTable = some gapTable ∧
    occupied gapTable 2 = true ∧
    gapTable.entries 2 = some ⟨qatanna.town, newTown qatanna, true⟩ ∧
    deleteFromHashTable gapTable qatanna.town = some (gapTable, [Message.townNotFound]) :=
  ⟨rfl, by decide, by decide, rfl⟩

/-! ## The hash value -/

theorem charValue_ascii {c : Nat} (h : c ≤ 127) : charValue c = c := by
  unfold charValue
  rw [if_pos (by omega)]

theorem hashBound_le (m : Nat) (hm : m ≤ 5) : hashBound m ≤ 121196735 := by
  interval_cases m <;> decide

/-- On ASCII bytes the loop of `hash`, continued from a value `h` reached
after `m` bytes, computes the polynomial without wrap-around. -/
theorem hash_fold_ascii (xs : List Nat) (hx : ∀ c ∈ xs, 1 ≤ c ∧ c ≤ 127) :
    ∀ (h m : Nat), h ≤ hashBound m → m + xs.length ≤ 5 →
      xs.foldl (fun hv c => (hv * 31 + charValue c) % 2 ^ 64) h =
        xs.foldl (fun hv c => 31 * hv + c) h ∧
      xs.foldl (fun hv c => 31 * hv + c) h ≤ hashBound (m + xs.length) := by
  induction xs with
  | nil => intro h m hb _; exact ⟨rfl, hb⟩
  | cons c cs ih =>
    intro h m hb hlen
    have hc := hx c (List.mem_cons_self _ _)
    have hcs : ∀ d ∈ cs, 1 ≤ d ∧ d ≤ 127 := fun d hd => hx d (List.mem_cons_of_mem _ hd)
    rw [List.length_cons] at hlen
    have hm := hashBound_le m (by omega)
    have hlt : h * 31 + c < 2 ^ 64 := by omega
    have hstep : 31 * h + c ≤ hashBound (m + 1) := by
      show 31 * h + c ≤ 31 * hashBound m + 127
      omega
    obtain ⟨e1, e2⟩ := ih hcs (31 * h + c) (m + 1) hstep (by omega)
    rw [List.foldl_cons, List.foldl_cons, charValue_ascii hc.2, Nat.mod_eq_of_lt hlt,
      Nat.mul_comm h 31, List.length_cons]
    refine ⟨e1, ?_⟩
    rw [show m + (cs.length + 1) = m + 1 + cs.length by omega]
    exact e2

/-- C14. For a key of ASCII bytes (1..127), `hash` is the polynomial
`h := 31 * h + key[i]` over the first `min(5, length)` bytes, reduced modulo 10;
the accumulation stays at or below 121196735 after every byte, so the
`unsigned long` never wraps, and the result is a slot index below 10. -/
theorem hash_ascii (key : CString) (hkey : ∀ c ∈ key, 1 ≤ c ∧ c ≤ 127) :
    hashValue key = polynomial (key.take 5) ∧
    (hash key).val = polynomial (key.take 5) % 10 ∧
    (hash key).val < 10 ∧
    (key.take 5).length = min 5 key.length ∧
    ∀ n, n ≤ 5 → polynomial (key.take n) ≤ 121196735 := by
  have hpre : ∀ n, n ≤ 5 →
      (key.take n).foldl (fun hv c => (hv * 31 + charValue c) % 2 ^ 64) 0 =
        polynomial (key.take n) ∧ polynomial (key.take n) ≤ 121196735 := by
    intro n hn
    have hlen : (key.take n).length ≤ 5 := by
      rw [List.length_take]; omega
    obtain ⟨e1, e2⟩ := hash_fold_ascii (key.take n)
      (fun c hc => hkey c (List.mem_of_mem_take hc)) 0 0 (le_refl _) (by omega)
    exact ⟨e1, le_trans e2 (hashBound_le _ (by omega))⟩
  have h5 := (hpre 5 (le_refl _)).1
  refine ⟨h5, ?_, (hash key).isLt, List.length_take _ _, fun n hn => (hpre n hn).2⟩
  show hashValue key % 10 = _
  rw [show hashValue key = polynomial (key.take 5) from h5]

/-- Witness for C14: five bytes 127 reach the bound 121196735; Hezma hashes to
slot 1. -/
theorem hash_ascii_witness :
    polynomial [127, 127, 127, 127, 127] = 121196735 ∧
    hashValue hezma.town = 69623121 ∧ hash hezma.town = 1 ∧
    (∀ c ∈ hezma.town, 1 ≤ c ∧ c ≤ 127) ∧
    hashValue hezma.town = polynomial (hezma.town.take 5) :=
  ⟨by decide, by decide, by decide, by decide, (hash_ascii hezma.town (by decide)).1⟩

/-- C15. Two keys with the same first five bytes (the same bytes, when
shorter) get the same slot index from `hash`, whatever follows the fifth
byte. -/
theorem hash_prefix (a b : CString) (hab : a.take 5 = b.take 5) : hash a = hash b := by
  apply Fin.ext
  show hashValue a % TABLE_SIZE = hashValue b % TABLE_SIZE
  unfold hashValue
  rw [hab]

/-- Witness for C15: Qatanna and a longer name with the same first five bytes. -/
theorem hash_prefix_witness :
    (str "Qatanna").take 5 = (str "QatanXYZ").take 5 ∧
    hash (str "Qatanna") = hash (str "QatanXYZ") :=
  ⟨by decide, hash_prefix (str "Qatanna") (str "QatanXYZ") (by decide)⟩

/-! ## Filtered listings -/

/-- C16. `listTownsByPopulation` prints exactly the records of the in-order
sequence whose population is strictly above the threshold, in that order, and
`listTownsByMunicipality` exactly those whose flag equals the given string byte
for byte.  On the four bootstrap records, threshold 4000 and flag "yes" both
give Asira, Hezma, Yabad (Qatanna has 3000 and "No"). -/
theorem listings_filter_inOrder :
    (∀ (t : Town) (n : Int),
      listTownsByPopulation t n = (inOrder t).filter fun x => decide (x.population > n)) ∧
    (∀ (t : Town) (f : CString),
      listTownsByMunicipality t f = (inOrder t).filter fun x => decide (x.hasMunicipality = f)) ∧
    inOrder fourTowns = [asira, hezma, qatanna, yabad] ∧
    listTownsByPopulation fourTowns 4000 = [asira, hezma, yabad] ∧
    listTownsByMunicipality fourTowns (str "yes") = [asira, hezma, yabad] := by
  refine ⟨fun t n => ?_, fun t f => ?_, by decide, by decide, by decide⟩
  · induction t with
    | nil => rfl
    | node l d r h ihl ihr =>
      rw [listTownsByPopulation, inOrder_node, List.filter_append, List.filter_cons, ihl, ihr]
      by_cases hp : d.population > n
      · simp [hp]
      · simp [hp]
  · induction t with
    | nil => rfl
    | node l d r h ihl ihr =>
      rw [listTownsByMunicipality, inOrder_node, List.filter_append, List.filter_cons, ihl, ihr]
      by_cases hp : d.hasMunicipality = f
      · simp [hp, strcmp_self]
      · have : ¬ strcmp d.hasMunicipality f = 0 := fun h0 => hp (strcmp_eq_zero h0)
        simp [hp, this]

/-! ## Menu option 12, and the rotations -/

/-- C18, the code at two failing inputs.  Menu option 12 on the empty tree:
Hezma gets its entry in the hash table and the search finds it, but `main`
keeps `root = NULL` and `findTown(root, "Hezma")` is `NULL`; the same for every
record and table when the tree is empty.  Menu option 12 on the tree of Asira
and Hezma with Qatanna, which rotates at the root: the search finds Qatanna
in the table, but `main` keeps its pointer to Asira's node, now a leaf below
the new root, and `findTown` from it returns `NULL`.  Menu option 1, which
assigns `root = insert(root, ...)`, finds both. -/
theorem menuInsertRecord_keeps_old_root :
    (menuInsertRecord ⟨nil, createHashTable⟩ hezma).map
        (fun a => (a.root, findTown a.root hezma.town,
          searchTownInHashTable 10 a.hashTable hezma.town)) =
      some (nil, nil, some [Message.townFound hezma.town, Message.collisions 0]) ∧
    (∀ (table : HashTable) (r : Record) (app1 : App),
      menuInsertRecord ⟨nil, table⟩ r = some app1 →
        app1.root = nil ∧ findTown app1.root r.town = nil) ∧
    insert twoTowns qatanna =
      some (node (node nil asira nil 1) hezma (node nil qatanna nil 1) 2) ∧
    (menuInsertRecord ⟨twoTowns, twoTable⟩ qatanna).map
        (fun a => (a.root, findTown a.root qatanna.town,
          searchTownInHashTable 10 a.hashTable qatanna.town)) =
      some (node nil asira nil 1, nil,
        some [Message.townFound qatanna.town, Message.collisions 1]) ∧
    (menuInsertTown ⟨nil, createHashTable⟩ hezma).map
        (fun a => findTown a.root hezma.town) = some (newTown hezma) ∧
    (menuInsertTown ⟨twoTowns, twoTable⟩ qatanna).map
        (fun a => findTown a.root qatanna.town) = some (newTown qatanna) := by
  refine ⟨by decide, fun table r app1 h => ?_, by decide, by decide, by decide, by decide⟩
  unfold menuInsertRecord at h
  obtain ⟨p, -, hp⟩ := Option.bind_eq_some.mp h
  change some (⟨nil, p.1⟩ : App) = some app1 at hp
  cases hp
  exact ⟨rfl, rfl⟩

theorem rightRotate_eq_none_iff (y : Town) : rightRotate y = none ↔ leftOf y = nil := by
  cases y with
  | nil => exact ⟨fun _ => rfl, fun _ => rfl⟩
  | node l d r h =>
    cases l with
    | nil => exact ⟨fun _ => rfl, fun _ => rfl⟩
    | node a b c e =>
      constructor
      · intro h1; rw [rightRotate_node] at h1; cases h1
      · intro h1; cases h1

theorem leftRotate_eq_none_iff (x : Town) : leftRotate x = none ↔ rightOf x = nil := by
  cases x with
  | nil => exact ⟨fun _ => rfl, fun _ => rfl⟩
  | node l d r h =>
    cases r with
    | nil => exact ⟨fun _ => rfl, fun _ => rfl⟩
    | node a b c e =>
      constructor
      · intro h1; rw [leftRotate_node] at h1; cases h1
      · intro h1; cases h1

/-- C19. A rotation returns no tree exactly when the child it dereferences is
`NULL`, and that failure is passed on by `insert` and `deleteTown`; on a tree
with the AVL invariant both return a tree for every record and key, so every
rotation they perform, the inner ones of the double rotations included, is
applied to a node that has the child it needs. -/
theorem rotations_cannot_fail (t : Town) (ha : avl t) (r : Record) (k : CString) :
    (∃ t1, insert t r = some t1) ∧ (∃ t1, deleteTown t k = some t1) ∧
    (∀ y, rightRotate y = none ↔ leftOf y = nil) ∧
    (∀ x, leftRotate x = none ↔ rightOf x = nil) := by
  obtain ⟨t1, e1, -⟩ := insert_avl t r ha
  obtain ⟨t2, e2, -⟩ := deleteTown_avl t k ha
  exact ⟨⟨t1, e1⟩, ⟨t2, e2⟩, rightRotate_eq_none_iff, leftRotate_eq_none_iff⟩

/-- Witness for C19: Qatanna inserted below Asira and Hezma rotates left at
the root; Asira deleted from the four bootstrap towns rotates left at the
root. -/
theorem rotations_cannot_fail_witness :
    avl twoTowns ∧
    insert twoTowns qatanna =
      some (node (node nil asira nil 1) hezma (node nil qatanna nil 1) 2) ∧
    deleteTown fourTowns asira.town =
      some (node (node nil hezma nil 1) qatanna (node nil yabad nil 1) 2) ∧
    (∃ t1, insert twoTowns qatanna = some t1) ∧
    (∃ t1, deleteTown twoTowns asira.town = some t1) :=
  ⟨by decide, by decide, by decide,
    (rotations_cannot_fail twoTowns (by decide) qatanna asira.town).1,
    (rotations_cannot_fail twoTowns (by decide) qatanna asira.town).2.1⟩

/-- C20. `rightRotate` on a node `y` with left child `x` returns `x` with `y`
as its right child and `x`'s old right subtree as `y`'s left: the in-order
sequence of records is the same, the three subtrees and the two payloads are
carried over as they are, and only the heights of `y`, then `x`, are
recomputed from their new children.  `leftRotate` is the mirror image. -/
theorem rotations_preserve_inOrder (xl T2 yr : Town) (xrec yrec : Record) (xh yh : Int) :
    (∃ t1, rightRotate (node (node xl xrec T2 xh) yrec yr yh) = some t1 ∧
      inOrder t1 = inOrder (node (node xl xrec T2 xh) yrec yr yh) ∧
      t1 = node xl xrec (node T2 yrec yr (max (height T2) (height yr) + 1))
        (max (height xl) (max (height T2) (height yr) + 1) + 1)) ∧
    (∃ t1, leftRotate (node xl xrec (node T2 yrec yr yh) xh) = some t1 ∧
      inOrder t1 = inOrder (node xl xrec (node T2 yrec yr yh) xh) ∧
      t1 = node (node xl xrec T2 (max (height xl) (height T2) + 1)) yrec yr
        (max (max (height xl) (height T2) + 1) (height yr) + 1)) :=
  ⟨⟨_, rightRotate_node xl T2 yr xrec yrec xh yh,
      rightRotate_inOrder (rightRotate_node xl T2 yr xrec yrec xh yh), rfl⟩,
    ⟨_, leftRotate_node xl T2 yr xrec yrec xh yh,
      leftRotate_inOrder (leftRotate_node xl T2 yr xrec yrec xh yh), rfl⟩⟩

/-! ## Saving to a file and loading it again -/

theorem isDigit_not_space {c : Nat} (h : isDigit c = true) : isSpace c = false := by
  simp only [isDigit, isSpace, decide_eq_true_eq, decide_eq_false_iff_not] at *
  omega

theorem showNatAux_spec : ∀ (fuel n : Nat) (acc : List Nat), n ≤ fuel →
    (∀ d ∈ acc, isDigit d = true) →
    (∀ d ∈ showNatAux fuel n acc, isDigit d = true) ∧
    (∃ d ds, showNatAux fuel n acc = d :: ds) ∧
    (showNatAux fuel n acc).foldl (fun a c => a * 10 + (c - 48)) 0 =
      acc.foldl (fun a c => a * 10 + (c - 48)) n := by
  intro fuel
  induction fuel with
  | zero =>
    intro n acc hn hacc
    have h0 : n = 0 := by omega
    subst h0
    refine ⟨fun d hd => ?_, ⟨_, _, rfl⟩, rfl⟩
    rcases List.mem_cons.mp hd with rfl | hd
    · decide
    · exact hacc d hd
  | succ f ih =>
    intro n acc hn hacc
    by_cases h10 : n < 10
    · rw [showNatAux, if_pos h10]
      refine ⟨fun d hd => ?_, ⟨_, _, rfl⟩, ?_⟩
      · rcases List.mem_cons.mp hd with rfl | hd
        · simp only [isDigit, decide_eq_true_eq]; omega
        · exact hacc d hd
      · rw [List.foldl_cons]
        congr 1
        omega
    · rw [showNatAux, if_neg h10]
      have hacc2 : ∀ d ∈ (48 + n % 10) :: acc, isDigit d = true := by
        intro d hd
        rcases List.mem_cons.mp hd with rfl | hd
        · simp only [isDigit, decide_eq_true_eq]; omega
        · exact hacc d hd
      obtain ⟨e1, e2, e3⟩ := ih (n / 10) ((48 + n % 10) :: acc) (by omega) hacc2
      refine ⟨e1, e2, ?_⟩
      rw [e3, List.foldl_cons]
      congr 1
      omega

/-- What `%d` prints for a natural number is a run of digits, not empty, whose
value in base ten is the number. -/
theorem showNat_spec (n : Nat) :
    (∀ d ∈ showNat n, isDigit d = true) ∧ (∃ d ds, showNat n = d :: ds) ∧
    (showNat n).foldl (fun a c => a * 10 + (c - 48)) 0 = n :=
  showNatAux_spec n n [] (le_refl _) (fun _ h => absurd h (List.not_mem_nil _))

theorem scanDigits_append (ds : List Nat) (hds : ∀ d ∈ ds, isDigit d = true)
    (rest : List Nat) (a : Nat) :
    scanDigits (ds ++ 58 :: rest) a =
      (ds.foldl (fun a c => a * 10 + (c - 48)) a, 58 :: rest) := by
  induction ds generalizing a with
  | nil => rfl
  | cons d ds ih =>
    rw [List.cons_append, scanDigits, if_pos (hds d (List.mem_cons_self _ _)), List.foldl_cons]
    exact ih (fun x hx => hds x (List.mem_cons_of_mem _ hx)) _

theorem skipSpaces_cons_of_not_space {c : Nat} (cs : List Nat) (h : isSpace c = false) :
    skipSpaces (c :: cs) = c :: cs := by
  unfold skipSpaces
  rw [List.dropWhile_cons_of_neg (by rw [h]; decide)]

/-- Reading back with `%d` what `%d` printed, up to the `:` that follows. -/
theorem scanInt_showInt (n : Int) (rest : List Nat) :
    scanInt (showInt n ++ 58 :: rest) = (some n, 58 :: rest) := by
  cases n with
  | ofNat m =>
    obtain ⟨hdig, ⟨d, ds, hd⟩, hval⟩ := showNat_spec m
    have hsc := scanDigits_append (showNat m) hdig rest 0
    rw [hval] at hsc
    have hdd : isDigit d = true := hdig d (by rw [hd]; exact List.mem_cons_self _ _)
    have hd45 : d ≠ 45 := by
      simp only [isDigit, decide_eq_true_eq] at hdd; omega
    have hd43 : d ≠ 43 := by
      simp only [isDigit, decide_eq_true_eq] at hdd; omega
    show scanInt (showNat m ++ 58 :: rest) = _
    rw [hd] at hsc ⊢
    rw [List.cons_append] at hsc ⊢
    simp only [scanInt, skipSpaces_cons_of_not_space _ (isDigit_not_space hdd), if_neg hd45,
      if_neg hd43, hdd, if_true, hsc]
    rfl
  | negSucc m =>
    obtain ⟨hdig, ⟨d, ds, hd⟩, hval⟩ := showNat_spec (m + 1)
    have hsc := scanDigits_append (showNat (m + 1)) hdig rest 0
    rw [hval] at hsc
    have hdd : isDigit d = true := hdig d (by rw [hd]; exact List.mem_cons_self _ _)
    show scanInt (45 :: showNat (m + 1) ++ 58 :: rest) = _
    rw [hd] at hsc ⊢
    rw [List.cons_append] at hsc
    simp only [List.cons_append, scanInt, skipSpaces_cons_of_not_space _ (by decide : isSpace 45 = false),
      if_true, hdd, hsc]
    rfl

theorem scanUntilColon_field (f rest : List Nat) (hf : plainText f) :
    scanUntilColon (f ++ 58 :: rest) = (some f, 58 :: rest) := by
  have hall : ∀ a ∈ f, (fun c : Nat => c != 58) a = true := by
    intro a ha
    simp only [bne_iff_ne, ne_eq]
    exact (hf.2 a ha).1
  have ht : (f ++ 58 :: rest).takeWhile (fun c => c != 58) = f := by
    rw [List.takeWhile_append_of_pos hall, List.takeWhile_cons_of_neg (by simp)]
    simp
  have hd : (f ++ 58 :: rest).dropWhile (fun c => c != 58) = 58 :: rest := by
    rw [List.dropWhile_append_of_pos hall, List.dropWhile_cons_of_neg (by simp)]
  unfold scanUntilColon
  rw [ht, hd, if_neg hf.1]

theorem skipSpaces_of_plain (f rest : List Nat) (hf : plainText f) :
    skipSpaces (f ++ rest) = f ++ rest := by
  obtain ⟨hne, hall⟩ := hf
  cases f with
  | nil => exact absurd rfl hne
  | cons c cs =>
    exact skipSpaces_cons_of_not_space _ (hall c (List.mem_cons_self _ _)).2

theorem scanWord_field (w rest : List Nat) (hw : plainText w) :
    scanWord (w ++ 10 :: rest) = (some w, 10 :: rest) := by
  have hall : ∀ a ∈ w, (fun c : Nat => !isSpace c) a = true := by
    intro a ha
    simp only [(hw.2 a ha).2, Bool.not_false]
  have ht : (w ++ 10 :: rest).takeWhile (fun c => !isSpace c) = w := by
    rw [List.takeWhile_append_of_pos hall, List.takeWhile_cons_of_neg (by decide)]
    simp
  have hd : (w ++ 10 :: rest).dropWhile (fun c => !isSpace c) = 10 :: rest := by
    rw [List.dropWhile_append_of_pos hall, List.dropWhile_cons_of_neg (by decide)]
  unfold scanWord
  rw [skipSpaces_of_plain w _ hw, ht, hd, if_neg hw.1]

/-- A stream that is at its end or starts with a byte that is not white
space. -/
theorem skipSpaces_newline (rest : List Nat)
    (hrest : rest = [] ∨ ∃ c cs, rest = c :: cs ∧ isSpace c = false) :
    skipSpaces (10 :: rest) = rest := by
  have h10 : skipSpaces (10 :: rest) = skipSpaces rest := by
    unfold skipSpaces
    rw [List.dropWhile_cons_of_pos (by decide)]
  rw [h10]
  rcases hrest with rfl | ⟨c, cs, rfl, hc⟩
  · rfl
  · exact skipSpaces_cons_of_not_space _ hc

/-- One `fscanf` call on a line written by `saveToFile` assigns the five
fields of the record and leaves the stream at the next line. -/
theorem fscanfRecord_formatLine (vars r : Record) (rest : List Nat)
    (hd : plainText r.district) (ht : plainText r.town) (hm : plainText r.hasMunicipality)
    (hrest : rest = [] ∨ ∃ c cs, rest = c :: cs ∧ isSpace c = false) :
    fscanfRecord vars (formatLine r ++ rest) = ⟨some 5, r, rest⟩ := by
  have e : formatLine r ++ rest =
      r.district ++ 58 :: (r.town ++ 58 :: (showInt r.population ++ 58 ::
        (showInt r.elevation ++ 58 :: (r.hasMunicipality ++ 10 :: rest)))) := by
    simp only [formatLine, List.append_assoc, List.cons_append, List.nil_append]
  rw [e]
  simp only [fscanfRecord, scanUntilColon_field _ _ hd, scanUntilColon_field _ _ ht,
    scanInt_showInt, scanWord_field _ _ hm, skipSpaces_newline rest hrest, ne_eq,
    not_true_eq_false, if_false]

theorem saveToFile_eq (t : Town) : saveToFile t = (inOrder t).flatMap formatLine := by
  induction t with
  | nil => rfl
  | node l d r h ihl ihr =>
    rw [saveToFile, inOrder_node, List.flatMap_append, List.flatMap_cons, ihl, ihr]

theorem lines_start (xs : List Record) (hxs : ∀ x ∈ xs, plainText x.district) :
    xs.flatMap formatLine = [] ∨
      ∃ c cs, xs.flatMap formatLine = c :: cs ∧ isSpace c = false := by
  cases xs with
  | nil => exact Or.inl rfl
  | cons x xs =>
    right
    obtain ⟨hne, hall⟩ := hxs x (List.mem_cons_self _ _)
    cases hd : x.district with
    | nil => exact absurd hd hne
    | cons c cs =>
      refine ⟨c, cs ++ 58 :: (x.town ++ 58 :: (showInt x.population ++ 58 ::
        (showInt x.elevation ++ 58 :: (x.hasMunicipality ++ [10])))) ++ xs.flatMap formatLine,
        ?_, (hall c (by rw [hd]; exact List.mem_cons_self _ _)).2⟩
      rw [List.flatMap_cons, formatLine, hd]
      rfl

theorem insertIntoHashTable_node (table : HashTable) (l r : Town) (d : Record) (h : Int) :
    ∃ p, insertIntoHashTable table (node l d r h) = some p := by
  cases hp : insertProbe table (hash d.town) TABLE_SIZE (hash d.town) with
  | free index =>
    exact ⟨(table.set index ⟨d.town, node l d r h, true⟩, []),
      by simp only [insertIntoHashTable, hp]⟩
  | full => exact ⟨(table, [Message.hashTableFull]), by simp only [insertIntoHashTable, hp]⟩
  | outOfFuel => exact absurd hp (insertProbe_fuel table (hash d.town))

/-- Inserting a key above every key of an ordered AVL tree appends the record
to the in-order sequence. -/
theorem insert_last (t : Town) (x : Record) (ha : avl t) (hb : bst t)
    (hlt : ∀ y ∈ inOrder t, strcmp y.town x.town < 0) :
    ∃ t1, insert t x = some t1 ∧ avl t1 ∧ bst t1 ∧ inOrder t1 = inOrder t ++ [x] := by
  obtain ⟨t1, e, ha1, -⟩ := insert_avl t x ha
  refine ⟨t1, e, ha1, insert_bst t x t1 hb e, ?_⟩
  rcases insert_inOrder t x t1 hb e with ⟨-, y, hy, hyk⟩ | ⟨pre, post, hsplit, hnew, -, hpost⟩
  · exact absurd (hlt y hy) (by rw [hyk]; exact strcmp_irrefl _)
  · cases post with
    | nil => rw [hnew, hsplit, List.append_nil]
    | cons p ps =>
      have hp1 := hpost p (List.mem_cons_self _ _)
      have hp2 := hlt p (by rw [hsplit]; simp)
      exact absurd (strcmp_trans hp1 hp2) (strcmp_irrefl _)

/-- The reading loop of `main` on the lines of an ascending list of plain
records, started on a tree whose keys are all below: every line is read back
and appended to the in-order sequence. -/
theorem loadLoop_lines (xs : List Record)
    (hplain : ∀ x ∈ xs, plainText x.district ∧ plainText x.town ∧ plainText x.hasMunicipality)
    (hasc : ascending xs) :
    ∀ (fuel : Nat) (vars : Record) (t : Town) (table : HashTable), xs.length < fuel →
      avl t → bst t → (∀ y ∈ inOrder t, ∀ x ∈ xs, strcmp y.town x.town < 0) →
      ∃ t2 table2, loadLoop fuel vars (xs.flatMap formatLine) t table = some (t2, table2) ∧
        inOrder t2 = inOrder t ++ xs := by
  induction xs with
  | nil =>
    intro fuel vars t table hf ha hb _
    cases fuel with
    | zero => cases hf
    | succ f => exact ⟨t, table, rfl, by rw [List.append_nil]⟩
  | cons x xs ih =>
    intro fuel vars t table hf ha hb hlt
    cases fuel with
    | zero => cases hf
    | succ f =>
      obtain ⟨hd, ht, hm⟩ := hplain x (List.mem_cons_self _ _)
      have hplain2 : ∀ y ∈ xs,
          plainText y.district ∧ plainText y.town ∧ plainText y.hasMunicipality :=
        fun y hy => hplain y (List.mem_cons_of_mem _ hy)
      have hscan := fscanfRecord_formatLine vars x (xs.flatMap formatLine) hd ht hm
        (lines_start xs fun y hy => (hplain2 y hy).1)
      obtain ⟨hxlt, hasc2⟩ := List.pairwise_cons.mp hasc
      obtain ⟨t1, e1, ha1, hb1, hio1⟩ :=
        insert_last t x ha hb fun y hy => hlt y hy x (List.mem_cons_self _ _)
      have hkey : ∃ y ∈ inOrder t1, y.town = x.town := ⟨x, by rw [hio1]; simp, rfl⟩
      obtain ⟨a, b, c, d, hfind, -, -⟩ := (findTown_spec t1 x.town hb1).1 hkey
      obtain ⟨p, hp⟩ := insertIntoHashTable_node table a c b d
      have hlt2 : ∀ y ∈ inOrder t1, ∀ z ∈ xs, strcmp y.town z.town < 0 := by
        intro y hy z hz
        rw [hio1] at hy
        rcases List.mem_append.mp hy with hy | hy
        · exact hlt y hy z (List.mem_cons_of_mem _ hz)
        · rw [List.mem_singleton.mp hy]
          exact hxlt z hz
      obtain ⟨t2, table2, e2, hio2⟩ := ih hplain2 hasc2 f x t1 p.1
        (Nat.lt_of_succ_lt_succ hf) ha1 hb1 hlt2
      refine ⟨t2, table2, ?_, by rw [hio2, hio1, List.append_assoc]; rfl⟩
      rw [List.flatMap_cons, loadLoop, hscan]
      simp only [e1, Option.some_bind, hfind, hp, e2]

/-- The tree built by successive inserts holds only records of the list. -/
theorem runOps_inserts (rs : List Record) :
    ∀ (t0 : Town), avl t0 → bst t0 →
      ∃ t, runOps (rs.map Op.insert) t0 = some t ∧ avl t ∧ bst t ∧
        ∀ x ∈ inOrder t, x ∈ inOrder t0 ∨ x ∈ rs := by
  induction rs with
  | nil => intro t0 ha hb; exact ⟨t0, rfl, ha, hb, fun x hx => Or.inl hx⟩
  | cons r rs ih =>
    intro t0 ha hb
    obtain ⟨t1, e1, ha1, -⟩ := insert_avl t0 r ha
    have hb1 := insert_bst t0 r t1 hb e1
    obtain ⟨t, e, hat, hbt, hmem⟩ := ih t1 ha1 hb1
    refine ⟨t, ?_, hat, hbt, fun x hx => ?_⟩
    · show (insert t0 r).bind (runOps (rs.map Op.insert)) = some t
      rw [e1, Option.some_bind, e]
    · rcases hmem x hx with h1 | h1
      · rcases insert_inOrder t0 r t1 hb e1 with ⟨hsame, -⟩ | ⟨pre, post, hsplit, hnew, -⟩
        · exact Or.inl (by rw [← hsame]; exact h1)
        · rw [hnew] at h1
          rcases List.mem_append.mp h1 with h2 | h2
          · exact Or.inl (by rw [hsplit]; exact List.mem_append_left _ h2)
          · rcases List.mem_cons.mp h2 with rfl | h3
            · exact Or.inr (List.mem_cons_self _ _)
            · exact Or.inl (by rw [hsplit]; exact List.mem_append_right _ h3)
      · exact Or.inr (List.mem_cons_of_mem _ h1)

/-- C17. For every list of records whose text fields are not empty, have no
`:` and no white space and fit their buffers: the successive inserts into the
empty tree return an index; the reading loop of `main`, run on the bytes
`saveToFile` writes for it, from the empty tree and the empty table, with any
initial content of its variables and any fuel above the number of lines, ends
with an index whose in-order sequence of records is that of the first. -/
theorem save_load_round_trip (rs : List Record) (hrs : ∀ r ∈ rs, storable r) :
    ∃ t, runOps (rs.map Op.insert) nil = some t ∧
      ∀ (vars : Record) (fuel : Nat), (inOrder t).length < fuel →
        ∃ t2 table2, loadLoop fuel vars (saveToFile t) nil createHashTable = some (t2, table2) ∧
          inOrder t2 = inOrder t := by
  obtain ⟨t, e, -, hb, hmem⟩ := runOps_inserts rs nil trivial trivial
  refine ⟨t, e, fun vars fuel hf => ?_⟩
  have hplain : ∀ x ∈ inOrder t,
      plainText x.district ∧ plainText x.town ∧ plainText x.hasMunicipality := by
    intro x hx
    rcases hmem x hx with h1 | h1
    · cases h1
    · exact ⟨(hrs x h1).1, (hrs x h1).2.1, (hrs x h1).2.2.1⟩
  obtain ⟨t2, table2, e2, hio⟩ := loadLoop_lines (inOrder t) hplain
    ((bst_iff_ascending t).mp hb) fuel vars nil createHashTable hf trivial trivial
    (fun y hy => by cases hy)
  exact ⟨t2, table2, by rw [saveToFile_eq]; exact e2, hio⟩

/-- Witness for C17: the four bootstrap records, inserted in file order,
saved and loaded again. -/
theorem save_load_round_trip_witness :
    (∀ r ∈ [hezma, asira, qatanna, yabad], storable r) ∧
    runOps ([hezma, asira, qatanna, yabad].map Op.insert) nil = some fourTowns ∧
    saveToFile fourTowns = str ("Nablus:Asira:8000:350:yes\nAlQuds:Hezma:5000:550:yes\n" ++
      "AlQuds:Qatanna:3000:300:No\nJenin:Yabad:12000:200:yes\n") ∧
    (loadLoop 5 hezma (saveToFile fourTowns) nil createHashTable).map (fun p => inOrder p.1) =
      some [asira, hezma, qatanna, yabad] ∧
    ∃ t, runOps ([hezma, asira, qatanna, yabad].map Op.insert) nil = some t ∧
      ∀ (vars : Record) (fuel : Nat), (inOrder t).length < fuel →
        ∃ t2 table2, loadLoop fuel vars (saveToFile t) nil createHashTable = some (t2, table2) ∧
          inOrder t2 = inOrder t :=
  ⟨by decide, by decide, by decide, by decide,
    save_load_round_trip [hezma, asira, qatanna, yabad] (by decide)⟩

/-! ## Tables made by the code -/

theorem flagged_set (table : HashTable) (index : Fin TABLE_SIZE) (e : HashTableEntry)
    (ht : flagged table) (he : e.isOccupied = true) : flagged (table.set index e) := by
  intro i e1 h1
  by_cases hi : i = index
  · rw [hi, Option.mem_def, HashTable.set_entries_same] at h1
    cases h1
    exact he
  · rw [Option.mem_def, HashTable.set_entries_ne _ _ _ _ hi] at h1
    exact ht i e1 h1

theorem flagged_clear (table : HashTable) (index : Fin TABLE_SIZE) (ht : flagged table) :
    flagged (table.clear index) := by
  intro i e1 h1
  by_cases hi : i = index
  · simp [HashTable.clear, hi] at h1
  · simp only [HashTable.clear, if_neg hi, Option.mem_def] at h1
    exact ht i e1 h1

theorem flagged_applyTableOp (table table1 : HashTable) (op : TableOp) (ht : flagged table)
    (h : applyTableOp table op = some table1) : flagged table1 := by
  cases op with
  | insert townData =>
    obtain ⟨p, hp, rfl⟩ := Option.map_eq_some'.mp h
    cases townData with
    | nil => cases hp
    | node l d r hh =>
      simp only [insertIntoHashTable] at hp
      split at hp
      · cases hp
        exact flagged_set _ _ _ ht rfl
      · cases hp
        exact ht
      · cases hp
  | delete town =>
    obtain ⟨p, hp, rfl⟩ := Option.map_eq_some'.mp h
    simp only [deleteFromHashTable] at hp
    split at hp
    · cases hp
      exact flagged_clear _ _ ht
    · cases hp
      exact ht
    · cases hp

/-- Every entry of a table made from the empty table by calls of
`insertIntoHashTable` and `deleteFromHashTable` has its `isOccupied` flag set. -/
theorem flagged_of_runTableOps (ops : List TableOp) :
    ∀ (table table1 : HashTable), flagged table → runTableOps ops table = some table1 →
      flagged table1 := by
  induction ops with
  | nil =>
    intro table table1 ht h
    cases h
    exact ht
  | cons op ops ih =>
    intro table table1 ht h
    obtain ⟨t2, h2, h3⟩ := Option.bind_eq_some.mp h
    exact ih t2 table1 (flagged_applyTableOp table t2 op ht h2) h3

theorem flagged_createHashTable : flagged createHashTable := by
  intro i e h
  cases h

/-! ## Height against the number of nodes -/

theorem minNodesSucc_step (h : Nat) :
    minNodesSucc (h + 2) = minNodesSucc (h + 1) + minNodesSucc h := rfl

theorem minNodesSucc_le_succ (h : Nat) : minNodesSucc h ≤ minNodesSucc (h + 1) := by
  cases h with
  | zero => decide
  | succ n => rw [minNodesSucc_step]; omega

theorem minNodesSucc_mono {a b : Nat} (hab : a ≤ b) : minNodesSucc a ≤ minNodesSucc b := by
  induction hab with
  | refl => exact le_refl _
  | step _ ih => exact le_trans ih (minNodesSucc_le_succ _)

theorem two_pow_le_minNodesSucc_sq : ∀ h : Nat, 2 ^ h ≤ minNodesSucc h ^ 2
  | 0 => by decide
  | 1 => by decide
  | h + 2 => by
    have ih := two_pow_le_minNodesSucc_sq h
    have hm := minNodesSucc_le_succ h
    have hstep := minNodesSucc_step h
    have h2 : 2 * minNodesSucc h ≤ minNodesSucc (h + 2) := by omega
    calc 2 ^ (h + 2) = 4 * 2 ^ h := by ring
      _ ≤ 4 * minNodesSucc h ^ 2 := by omega
      _ = (2 * minNodesSucc h) ^ 2 := by ring
      _ ≤ minNodesSucc (h + 2) ^ 2 := Nat.pow_le_pow_left h2 2

/-- An AVL tree of height `h` has at least `minNodesSucc h - 1` nodes. -/
theorem minNodesSucc_le_size : ∀ (t : Town), avl t →
    minNodesSucc (height t).toNat ≤ size t + 1
  | nil, _ => by decide
  | node l d r h, ht => by
    obtain ⟨hl, hr, hh, hb1, hb2⟩ := ht
    have ihl := minNodesSucc_le_size l hl
    have ihr := minNodesSucc_le_size r hr
    have hl0 := avl_height_nonneg hl
    have hr0 := avl_height_nonneg hr
    rw [max_eq] at hh
    rw [height_node, size]
    obtain ⟨a, ha⟩ := Int.eq_ofNat_of_zero_le hl0
    obtain ⟨b, hb⟩ := Int.eq_ofNat_of_zero_le hr0
    rw [ha, Int.toNat_ofNat] at ihl
    rw [hb, Int.toNat_ofNat] at ihr
    rw [ha, hb] at hh hb1 hb2
    rcases Nat.lt_or_ge a b with hlt | hge
    · -- the right subtree is the higher one: `b = a + 1`
      have hb1' : b = a + 1 := by omega
      have hh' : h.toNat = a + 2 := by omega
      rw [hh', minNodesSucc_step]
      rw [hb1'] at ihr
      omega
    · rcases Nat.eq_or_lt_of_le hge with heq | hgt
      · -- equal heights
        have hh' : h.toNat = a + 1 := by omega
        rw [hh']
        rw [heq] at ihr
        cases a with
        | zero => show 2 ≤ _; omega
        | succ n =>
          rw [minNodesSucc_step]
          have := minNodesSucc_le_succ n
          omega
      · -- the left subtree is the higher one: `a = b + 1`
        have ha1 : a = b + 1 := by omega
        have hh' : h.toNat = b + 2 := by omega
        rw [hh', minNodesSucc_step]
        rw [ha1] at ihl
        omega

theorem two_pow_height_le (t : Town) (ha : avl t) :
    2 ^ (height t).toNat ≤ (size t + 1) ^ 2 :=
  le_trans (two_pow_le_minNodesSucc_sq _) (Nat.pow_le_pow_left (minNodesSucc_le_size t ha) 2)

/-- On a tree with exact cached heights `findTown` visits at most as many
nodes as the height of the root. -/
theorem findTownVisits_le_height : ∀ (t : Town) (k : CString), avl t →
    (findTownVisits t k : Int) ≤ height t
  | nil, _, _ => by simp [findTownVisits, height_nil]
  | node l d r h, k, ht => by
    obtain ⟨hl, hr, hh, -, -⟩ := ht
    have ihl := findTownVisits_le_height l k hl
    have ihr := findTownVisits_le_height r k hr
    have hl0 := avl_height_nonneg hl
    have hr0 := avl_height_nonneg hr
    rw [max_eq] at hh
    rw [height_node, findTownVisits]
    split_ifs
    · push_cast; omega
    · push_cast; omega
    · push_cast; omega

/-- C21. Every sequence of `insert` and `deleteTown` calls started on the empty
tree returns a tree with `n` nodes and root height `h` such that
`2^h ≤ (n + 1)^2`, that is `h ≤ 2 * log2 (n + 1)`; `findTown` visits at most `h`
nodes of it for every key, so the same bound holds for that number. -/
theorem height_logarithmic (ops : List Op) :
    ∃ t, runOps ops nil = some t ∧ 0 ≤ height t ∧
      2 ^ (height t).toNat ≤ (size t + 1) ^ 2 ∧
      ∀ k, findTownVisits t k ≤ (height t).toNat ∧
        2 ^ findTownVisits t k ≤ (size t + 1) ^ 2 := by
  obtain ⟨t, e, ha, -⟩ := runOps_invariant ops nil trivial trivial
  have h0 := avl_height_nonneg ha
  have hpow := two_pow_height_le t ha
  refine ⟨t, e, h0, hpow, fun k => ?_⟩
  have hv := findTownVisits_le_height t k ha
  have hv2 : findTownVisits t k ≤ (height t).toNat := by omega
  exact ⟨hv2, le_trans (Nat.pow_le_pow_right (by decide) hv2) hpow⟩

/-! ## The frame of a deletion from the hash table -/

theorem countP_flip {α : Type} [DecidableEq α] (j : α) (p q : α → Bool) (hp : p j = true)
    (hq : q j = false) (hne : ∀ i, i ≠ j → q i = p i) :
    ∀ (l : List α), l.Nodup → j ∈ l → l.countP q + 1 = l.countP p
  | [], _, hj => absurd hj (List.not_mem_nil _)
  | x :: xs, hnd, hj => by
    obtain ⟨hx, hxs⟩ := List.nodup_cons.mp hnd
    by_cases hxj : x = j
    · subst hxj
      have hsame : xs.countP q = xs.countP p := by
        apply List.countP_congr
        intro i hi
        have hij : i ≠ x := fun h => hx (h ▸ hi)
        rw [hne i hij]
      rw [List.countP_cons_of_neg _ _ (by rw [hq]; decide), List.countP_cons_of_pos _ _ hp, hsame]
    · have hjxs : j ∈ xs := by
        rcases List.mem_cons.mp hj with h | h
        · exact absurd h.symm hxj
        · exact h
      have ih := countP_flip j p q hp hq hne xs hxs hjxs
      rw [List.countP_cons, List.countP_cons, hne x hxj]
      omega

theorem occupied_clear_same (table : HashTable) (index : Fin TABLE_SIZE) :
    occupied (table.clear index) index = false := by
  simp [occupied, HashTable.clear]

theorem occupied_clear_ne (table : HashTable) (index i : Fin TABLE_SIZE) (h : i ≠ index) :
    occupied (table.clear index) i = occupied table i := by
  simp [occupied, HashTable.clear, h]

/-- Clearing an occupied slot lowers the count of `printHashTableStats` by
one. -/
theorem occupiedCount_clear (table : HashTable) (index : Fin TABLE_SIZE)
    (hocc : occupied table index = true) :
    occupiedCount (table.clear index) + 1 = occupiedCount table :=
  countP_flip index (fun i => occupied table i) (fun i => occupied (table.clear index) i)
    hocc (occupied_clear_same table index) (fun i hi => occupied_clear_ne table index i hi)
    (List.finRange TABLE_SIZE) (List.nodup_finRange _) (List.mem_finRange _)

/-- What `deleteFromHashTable` returns, by what it prints: on success the
table with the first match of the probe sequence cleared, otherwise the table
it was given. -/
theorem deleteFromHashTable_cases (table : HashTable) (k : CString) :
    (∃ m, firstMatch table k m ∧
      deleteFromHashTable table k =
        some (table.clear (slotAt (hash k) m), [Message.townDeleted])) ∨
    ((∀ m, ¬ firstMatch table k m) ∧
      deleteFromHashTable table k = some (table, [Message.townNotFound])) := by
  by_cases h : ∃ m, firstMatch table k m
  · obtain ⟨m, hm⟩ := h
    left
    exact ⟨m, hm, by simp only [deleteFromHashTable, (deleteProbe_spec table k).1 m hm]⟩
  · right
    have hnone : ∀ m, ¬ firstMatch table k m := fun m hm => h ⟨m, hm⟩
    exact ⟨hnone, by simp only [deleteFromHashTable, (deleteProbe_spec table k).2 hnone]⟩

/-- C22. `deleteFromHashTable` always returns, reporting a deletion or "Town
not found.".  When it reports a deletion, the slot cleared is the first slot
in probe order from `hash(k)` that holds an occupied entry for `k` (no slot
before it does); that slot is `NULL` afterwards, every other slot is as it was,
and the count of occupied slots that `printHashTableStats` divides by
`TABLE_SIZE` is one less.  When it reports "Town not found." the table is as
it was. -/
theorem deleteFromHashTable_frame (table : HashTable) (k : CString) :
    (∃ table1 out, deleteFromHashTable table k = some (table1, out) ∧
      (out = [Message.townDeleted] ∨ out = [Message.townNotFound])) ∧
    (∀ table1, deleteFromHashTable table k = some (table1, [Message.townDeleted]) →
      ∃ m, m < TABLE_SIZE ∧
        (∃ e ∈ table.entries (slotAt (hash k) m), e.isOccupied = true ∧ e.town = k) ∧
        (∀ i, i < m → ¬ ∃ e ∈ table.entries (slotAt (hash k) i),
          e.isOccupied = true ∧ e.town = k) ∧
        table1.entries (slotAt (hash k) m) = none ∧
        (∀ i, i ≠ slotAt (hash k) m → table1.entries i = table.entries i) ∧
        occupiedCount table1 + 1 = occupiedCount table) ∧
    (∀ table1, deleteFromHashTable table k = some (table1, [Message.townNotFound]) →
      table1 = table) := by
  rcases deleteFromHashTable_cases table k with ⟨m, hm, e⟩ | ⟨-, e⟩
  · refine ⟨⟨_, _, e, Or.inl rfl⟩, fun table1 h1 => ?_, fun table1 h1 => ?_⟩
    · rw [e] at h1
      cases h1
      obtain ⟨hlt, hbefore, e0, he0, hocc, htown⟩ := hm
      refine ⟨m, hlt, ⟨e0, he0, hocc, htown⟩, fun i hi => ?_, ?_, fun i hi => ?_, ?_⟩
      · rintro ⟨e2, he2, hmatch⟩
        obtain ⟨e1, he1, hno⟩ := hbefore i hi
        rw [Option.mem_def] at he1 he2
        rw [he1] at he2
        cases he2
        exact hno hmatch
      · simp [HashTable.clear]
      · simp [HashTable.clear, hi]
      · apply occupiedCount_clear
        rw [Option.mem_def] at he0
        simp only [occupied, he0, hocc]
    · rw [e] at h1
      cases h1
  · refine ⟨⟨_, _, e, Or.inr rfl⟩, fun table1 h1 => ?_, fun table1 h1 => ?_⟩
    · rw [e] at h1
      cases h1
    · rw [e] at h1
      cases h1
      rfl

/-- Witness for C22: Qatanna deleted from the table of the four bootstrap
towns; slot 2, the second of its probe sequence, is cleared and the count
goes from 4 to 3. -/
theorem deleteFromHashTable_frame_witness :
    hash qatanna.town = 1 ∧ occupiedCount fourTable = 4 ∧
    deleteFromHashTable fourTable qatanna.town =
      some (fourTable.clear 2, [Message.townDeleted]) ∧
    occupiedCount (fourTable.clear 2) = 3 ∧
    slots (fourTable.clear 2) =
      [none, fourTable.entries 1, none, fourTable.entries 3, none, none,
        fourTable.entries 6, none, none, none] ∧
    ∃ m, m < TABLE_SIZE ∧
      (∃ e ∈ fourTable.entries (slotAt (hash qatanna.town) m),
        e.isOccupied = true ∧ e.town = qatanna.town) ∧
      (∀ i, i < m → ¬ ∃ e ∈ fourTable.entries (slotAt (hash qatanna.town) i),
        e.isOccupied = true ∧ e.town = qatanna.town) ∧
      (fourTable.clear 2).entries (slotAt (hash qatanna.town) m) = none ∧
      (∀ i, i ≠ slotAt (hash qatanna.town) m →
        (fourTable.clear 2).entries i = fourTable.entries i) ∧
      occupiedCount (fourTable.clear 2) + 1 = occupiedCount fourTable :=
  ⟨by decide, by decide, rfl, by decide, by decide,
    (deleteFromHashTable_frame fourTable qatanna.town).2.1 (fourTable.clear 2) rfl⟩

end TownIndex
